import Mathlib

/-!
Verification development for the `whip` IP-intelligence store.

The definitions below are a shallow embedding of the Python sources:

* `src/whip/util.py` — dict diffing/patching (`dict_diff`, `dict_patch`,
  `dict_diff_incremental`, `dict_patch_incremental`) and the range merger
  (`merge_ranges`).
* `src/whip/db.py` — record construction (`build_key_value`,
  `build_history`, `build_record`), `ExistingRecord`, and the `Database`
  class (`load`, `lookup` with its `functools.lru_cache`).
* `src/whip/web.py` — the HTTP lookup handler.

Python dicts are modelled as association lists without duplicate keys
(`Dict`), preserving insertion order, with `==` modelled as pointwise
lookup equality (`dictEq`).  Exceptions (`KeyError`, `AssertionError`,
`StopIteration`, malformed addresses) are modelled with `Option`: `none`
is "the operation raised".  Machine-level byte strings are `List ℕ`
(each entry < 256 where produced by the code).

The address codec (`ip_int_to_packed`, `ip_str_to_int`, …) is imported
by `db.py` and the test suite from `whip.util` but is absent from the
sources provided; those definitions are modelled from the spec and say
so in their doc comments.
-/

/-! ### Dicts, diffs and patches (`whip/util.py`) -/

/-- Python dicts modelled as insertion-ordered association lists. -/
abbrev Dict (K V : Type) := List (K × V)

/-- Lookup of a key (`d[k]` / `d.get(k)`), first matching entry. -/
def dlookup {K V : Type} [DecidableEq K] : Dict K V → K → Option V
  | [], _ => none
  | (k', v) :: t, k => if k' = k then some v else dlookup t k

/-- The `DictPatch` namedtuple from `whip/util.py`. -/
structure DictPatch (K V : Type) where
  modifications : Dict K V
  deletions : List K
deriving DecidableEq

/-- `dict_diff(d1, d2)` from `whip/util.py`: modifications are the pairs of
`d2` whose key is absent from `d1` or mapped to a different value;
deletions are the keys of `d1` absent from `d2`. -/
def dict_diff {K V : Type} [DecidableEq K] [DecidableEq V]
    (d1 d2 : Dict K V) : DictPatch K V :=
  ⟨d2.filter (fun kv => decide (dlookup d1 kv.1 ≠ some kv.2)),
   (d1.filter (fun kv => decide (dlookup d2 kv.1 = none))).map Prod.fst⟩

/-- Python `d[k] = v`: replace the value in place if the key is present,
else append the pair at the end (dict insertion order). -/
def dset {K V : Type} [DecidableEq K] : Dict K V → K → V → Dict K V
  | [], k, v => [(k, v)]
  | (k', v') :: t, k, v =>
    if k' = k then (k, v) :: t else (k', v') :: dset t k v

/-- Python `d.update(mods)`: apply `dset` for each pair of `mods` in order. -/
def dupdate {K V : Type} [DecidableEq K] (d mods : Dict K V) : Dict K V :=
  mods.foldl (fun acc kv => dset acc kv.1 kv.2) d

/-- Python `del d[k]`: `none` models the `KeyError` on an absent key. -/
def ddel {K V : Type} [DecidableEq K] : Dict K V → K → Option (Dict K V)
  | [], _ => none
  | (k', v') :: t, k =>
    if k' = k then some t else (ddel t k).map ((k', v') :: ·)

/-- Sequence of `del d[k]` for the keys of a deletion list. -/
def ddelAll {K V : Type} [DecidableEq K] : Dict K V → List K → Option (Dict K V)
  | d, [] => some d
  | d, k :: ks =>
    match ddel d k with
    | none => none
    | some d' => ddelAll d' ks

/-- `dict_patch(d, patch)` (out-of-place variant, `inplace=False`):
update with the modifications, then delete the deletion keys; `none`
models a raised `KeyError`. -/
def dict_patch {K V : Type} [DecidableEq K] (d : Dict K V) (p : DictPatch K V) :
    Option (Dict K V) :=
  ddelAll (dupdate d p.modifications) p.deletions

/-- `dict_diff_incremental(iterable)`: `(x₁, [diff(x₁,x₂), diff(x₂,x₃), …])`;
`none` models the `StopIteration` of `next(b)` on an empty iterable. -/
def dict_diff_incremental {K V : Type} [DecidableEq K] [DecidableEq V] :
    List (Dict K V) → Option (Dict K V × List (DictPatch K V))
  | [] => none
  | x :: xs => some (x, List.zipWith dict_diff (x :: xs) xs)

/-- `dict_patch_incremental(d, patches)`: apply patches cumulatively,
yielding every intermediate result. -/
def dict_patch_incremental {K V : Type} [DecidableEq K] (d : Dict K V) :
    List (DictPatch K V) → Option (List (Dict K V))
  | [] => some []
  | p :: ps =>
    match dict_patch d p with
    | none => none
    | some c =>
      match dict_patch_incremental c ps with
      | none => none
      | some cs => some (c :: cs)

/-- Dict invariant: no duplicate keys (always true of Python dicts). -/
def NodupKeys {K V : Type} (d : Dict K V) : Prop := (d.map Prod.fst).Nodup

instance {K V : Type} [DecidableEq K] (d : Dict K V) : Decidable (NodupKeys d) :=
  decidable_of_iff ((d.map Prod.fst).Nodup) Iff.rfl

/-- Python `d1 == d2` on dicts: pointwise lookup equality. -/
def dictEq {K V : Type} [DecidableEq K] (d1 d2 : Dict K V) : Prop :=
  ∀ k, dlookup d1 k = dlookup d2 k

/-- Heap-and-reference model used for the in-place/out-of-place claim:
a store of dicts indexed by position, `dict_patch` on a reference.  With
`inplace = false` the source dict is first copied to a fresh cell and
the mutation happens there; with `inplace = true` the original cell is
mutated. -/
def dict_patch_at {K V : Type} [DecidableEq K] (σ : List (Dict K V)) (r : ℕ)
    (p : DictPatch K V) (inplace : Bool) : Option (List (Dict K V) × ℕ) :=
  let t := if inplace then r else σ.length
  let σ₁ := if inplace then σ else σ ++ [σ.getD r []]
  match dict_patch (σ₁.getD t []) p with
  | none => none
  | some d' => some (σ₁.set t d', t)

/-! ### Range merging (`whip/util.py`, `merge_ranges`)

`merge_ranges` turns every input range `(b, e, data)` of input `i` into
two events `(b, BEGIN, i, data)` and `(e+1, END, i, None)`, merges all
event streams with `heapq.merge` (which repeatedly pops the stream whose
head tuple is smallest; tuples compare lexicographically and never reach
the payload component because input ids are distinct), groups the merged
stream by position with `itertools.groupby`, and folds the groups over an
insertion-ordered active map. -/

/-- One change event: position, event type (`0` = BEGIN, `1` = END),
input id, payload (`some` for BEGIN events, `none` for END events as
generated). -/
structure Ev (α : Type) where
  pos : ℕ
  etype : ℕ
  id : ℕ
  data : Option α
deriving DecidableEq

/-- Lexicographic comparison of the event tuples `(position, event-type,
input-id)`, as performed by `heapq.merge` on the generated 4-tuples (the
payload component is never reached because ids differ). -/
def evKeyLE {α : Type} (a b : Ev α) : Bool :=
  decide (a.pos < b.pos ∨ (a.pos = b.pos ∧
    (a.etype < b.etype ∨ (a.etype = b.etype ∧ a.id ≤ b.id))))

/-- One step of `heapq.merge`: pop the head of the stream whose head is
smallest (the earliest stream wins a tie, as in `heapq.merge`). -/
def popMin {α : Type} : List (List (Ev α)) → Option (Ev α × List (List (Ev α)))
  | [] => none
  | [] :: rest =>
    match popMin rest with
    | none => none
    | some (e, rest') => some (e, [] :: rest')
  | (x :: xs) :: rest =>
    match popMin rest with
    | none => some (x, xs :: rest)
    | some (y, rest') =>
      if evKeyLE x y then some (x, xs :: rest) else some (y, (x :: xs) :: rest')

/-- Total number of pending events. -/
def totalLen {α : Type} (ls : List (List (Ev α))) : ℕ := (ls.map List.length).sum

/-- Fuelled k-way merge loop (fuel `≥ totalLen` exhausts all streams). -/
def mergeEvF {α : Type} : ℕ → List (List (Ev α)) → List (Ev α)
  | 0, _ => []
  | fuel + 1, ls =>
    match popMin ls with
    | none => []
    | some (e, ls') => e :: mergeEvF fuel ls'

/-- `heapq.merge` over the event streams. -/
def mergeEvents {α : Type} (ls : List (List (Ev α))) : List (Ev α) :=
  mergeEvF (totalLen ls) ls

/-- Events generated for one input stream (`generate_change_events`),
without the `begin <= end` assertion. -/
def genEventsP {α : Type} (i : ℕ) : List (ℕ × ℕ × α) → List (Ev α)
  | [] => []
  | (b, e, d) :: t => ⟨b, 0, i, some d⟩ :: ⟨e + 1, 1, i, none⟩ :: genEventsP i t

/-- `generate_change_events` with its `assert begin <= end`; `none`
models the `AssertionError`. -/
def genEvents {α : Type} (i : ℕ) : List (ℕ × ℕ × α) → Option (List (Ev α))
  | [] => some []
  | (b, e, d) :: t =>
    if b ≤ e then
      match genEvents i t with
      | none => none
      | some es => some (⟨b, 0, i, some d⟩ :: ⟨e + 1, 1, i, none⟩ :: es)
    else none

/-- Event streams for all inputs, with input ids `k, k+1, …` (the
`enumerate(inputs)` of `merge_ranges`). -/
def genAll {α : Type} (k : ℕ) : List (List (ℕ × ℕ × α)) → Option (List (List (Ev α)))
  | [] => some []
  | s :: rest =>
    match genEvents k s, genAll (k + 1) rest with
    | some es, some rest' => some (es :: rest')
    | _, _ => none

/-- Helper of `groupByPos`: accumulate the current run of events sharing
position `p` (accumulator reversed). -/
def gbpGo {α : Type} (p : ℕ) (acc : List (Ev α)) : List (Ev α) → List (ℕ × List (Ev α))
  | [] => [(p, acc.reverse)]
  | e :: rest =>
    if e.pos = p then gbpGo p (e :: acc) rest
    else (p, acc.reverse) :: gbpGo e.pos [e] rest

/-- `itertools.groupby(all_changes, itemgetter(0))`: consecutive runs of
events sharing a position. -/
def groupByPos {α : Type} : List (Ev α) → List (ℕ × List (Ev α))
  | [] => []
  | e :: rest => gbpGo e.pos [e] rest

/-- Apply one event to the active map (a `Dict ℕ α`): BEGIN asserts the
input id is absent and appends; END (`del active[input_id]`) requires the
id present, `none` modelling the `AssertionError`/`KeyError`.  Generated
events always carry `some` data on BEGIN and have `etype ∈ {0, 1}`. -/
def applyEvent {α : Type} (m : Dict ℕ α) (ev : Ev α) : Option (Dict ℕ α) :=
  if ev.etype = 0 then
    match dlookup m ev.id, ev.data with
    | none, some d => some (m ++ [(ev.id, d)])
    | _, _ => none
  else
    match dlookup m ev.id with
    | some _ => some (m.filter (fun kv => decide (kv.1 ≠ ev.id)))
    | none => none

/-- Apply the events of one position group in order. -/
def applyEvents {α : Type} : List (Ev α) → Dict ℕ α → Option (Dict ℕ α)
  | [], m => some m
  | ev :: t, m =>
    match applyEvent m ev with
    | none => none
    | some m' => applyEvents t m'

/-- Effect of one event on a single input id's slot of the active map. -/
def entryStep {α : Type} (ev : Ev α) (cur : Option α) : Option (Option α) :=
  if ev.etype = 0 then
    match cur, ev.data with
    | none, some d => some (some d)
    | _, _ => none
  else
    match cur with
    | some _ => some none
    | none => none

/-- Iterated `entryStep` (used to reason per input id). -/
def entryApply {α : Type} : List (Ev α) → Option α → Option (Option α)
  | [], cur => some cur
  | ev :: t, cur =>
    match entryStep ev cur with
    | none => none
    | some cur' => entryApply t cur'

/-- The main loop of `merge_ranges`: before applying a position group,
yield `(previous_position, position - 1, active.values())` when the
active map is nonempty (on the first group the map is empty, so the
`previous_position = None` placeholder `getD 0` is never emitted). -/
def runGroups {α : Type} :
    List (ℕ × List (Ev α)) → Option ℕ → Dict ℕ α →
    Option (List (ℕ × ℕ × List α) × Dict ℕ α)
  | [], _, m => some ([], m)
  | (p, evs) :: rest, prev, m =>
    let outs₀ : List (ℕ × ℕ × List α) :=
      if m.isEmpty then [] else [(prev.getD 0, p - 1, m.map Prod.snd)]
    match applyEvents evs m with
    | none => none
    | some m' =>
      match runGroups rest (some p) m' with
      | none => none
      | some (outs, mf) => some (outs₀ ++ outs, mf)

/-- The multi-input path of `merge_ranges` (taken whenever the number of
inputs differs from one), including the final `assert len(active) == 0`. -/
def mergeMulti {α : Type} (inputs : List (List (ℕ × ℕ × α))) :
    Option (List (ℕ × ℕ × List α)) :=
  match genAll 0 inputs with
  | none => none
  | some evss =>
    match runGroups (groupByPos (mergeEvents evss)) none [] with
    | none => none
    | some (outs, mf) => if mf.isEmpty then some outs else none

/-- `merge_ranges(*inputs)`: the single-input shortcut passes each range
through as `(begin, end, [data])` with no checks at all; otherwise run
the event-merge pipeline.  `none` models any raised error while fully
consuming the generator. -/
def merge_ranges {α : Type} (inputs : List (List (ℕ × ℕ × α))) :
    Option (List (ℕ × ℕ × List α)) :=
  match inputs with
  | [single] => some (single.map (fun r => (r.1, r.2.1, [r.2.2])))
  | _ => mergeMulti inputs

/-- Stream contract of the spec: `begin ≤ end` for every triple and
`end_i < begin_{i+1}` for consecutive triples. -/
def WFranges {α : Type} (s : List (ℕ × ℕ × α)) : Prop :=
  (∀ r ∈ s, r.1 ≤ r.2.1) ∧ List.Chain' (fun a b => a.2.1 < b.1) s

/-- The payload of the (at most one, by the contract) range of `s`
containing position `x`. -/
def activeEntry {α : Type} (s : List (ℕ × ℕ × α)) (x : ℕ) : Option α :=
  (s.find? (fun r => decide (r.1 ≤ x ∧ x ≤ r.2.1))).map (·.2.2)

/-- `activeEntry` below an optional position (`none` = before all input). -/
def activeEntryO {α : Type} (s : List (ℕ × ℕ × α)) : Option ℕ → Option α
  | none => none
  | some x => activeEntry s x

/-- Strictly-above relation on an optional lower bound. -/
def Below : Option ℕ → ℕ → Prop
  | none, _ => True
  | some p, t => p < t

/-- All event positions of one input stream. -/
def evPositions {α : Type} : List (ℕ × ℕ × α) → List ℕ
  | [] => []
  | (b, e, _) :: t => b :: (e + 1) :: evPositions t

/-- The event streams of `genAll` without the assertions (equal to
`genAll` on inputs meeting the `begin ≤ end` contract). -/
def genAllP {α : Type} (k : ℕ) : List (List (ℕ × ℕ × α)) → List (List (Ev α))
  | [] => []
  | s :: rest => genEventsP k s :: genAllP (k + 1) rest

instance (lb : Option ℕ) (t : ℕ) : Decidable (Below lb t) := by
  cases lb
  · exact isTrue trivial
  · exact inferInstanceAs (Decidable (_ < _))

/-- Executable check of the stream contract `WFranges`. -/
def wfRangesB {α : Type} : List (ℕ × ℕ × α) → Bool
  | [] => true
  | [(b, e, _)] => decide (b ≤ e)
  | (b, e, _) :: (b', e', d') :: t =>
    decide (b ≤ e) && decide (e < b') && wfRangesB ((b', e', d') :: t)

/-! ### Address codec

Modelled from the spec (§3, §4.1): `whip/db.py` and the test suite
pull in `ip_int_to_packed`, `ip_packed_to_int`, `ip_int_to_str`,
`ip_str_to_int`, `ip_str_to_packed` and `ip_packed_to_str` from
`whip.util`, but the provided `src/whip/util.py` only contains the
IPv4-only helpers, so the 128-bit codec below follows the spec's words:
three forms (human string, 128-bit unsigned integer, packed 16-byte
big-endian); IPv4 strings are recognized and mapped by prefixing with
`00…00 ffff`; packed values starting with that 12-byte prefix render as
IPv4 dotted notation, all others render as IPv6.  Strings are `List
Char`. -/

/-- Big-endian digits of `n` in the given base, fixed width `k`. -/
def natToBE (base : ℕ) : ℕ → ℕ → List ℕ
  | 0, _ => []
  | k + 1, n => natToBE base k (n / base) ++ [n % base]

/-- Recombine big-endian digits. -/
def beToNat (base : ℕ) (l : List ℕ) : ℕ := l.foldl (fun acc d => acc * base + d) 0

/-- Modelled from the spec: `ip_int_to_packed`, the packed 16-byte
big-endian form of a 128-bit integer (absent from `src/whip/util.py`). -/
def ip_int_to_packed (n : ℕ) : List ℕ := natToBE 256 16 n

/-- Modelled from the spec: `ip_packed_to_int` (absent from
`src/whip/util.py`). -/
def ip_packed_to_int (b : List ℕ) : ℕ := beToNat 256 b

/-- Effectful map over `Option` (used in place of Python loops that can
raise): `none` as soon as one element maps to `none`. -/
def mapO {A B : Type} (f : A → Option B) : List A → Option (List B)
  | [] => some []
  | a :: t =>
    match f a, mapO f t with
    | some b, some bs => some (b :: bs)
    | _, _ => none

/-- Lowercase hex digit characters. -/
def hexDigitChar : ℕ → Char
  | 0 => '0' | 1 => '1' | 2 => '2' | 3 => '3' | 4 => '4'
  | 5 => '5' | 6 => '6' | 7 => '7' | 8 => '8' | 9 => '9'
  | 10 => 'a' | 11 => 'b' | 12 => 'c' | 13 => 'd' | 14 => 'e' | 15 => 'f'
  | _ => '?'

/-- Value of a hex digit character (`16` for non-hex characters). -/
def hexCharVal (c : Char) : ℕ :=
  if c = '0' then 0 else if c = '1' then 1 else if c = '2' then 2
  else if c = '3' then 3 else if c = '4' then 4 else if c = '5' then 5
  else if c = '6' then 6 else if c = '7' then 7 else if c = '8' then 8
  else if c = '9' then 9 else if c = 'a' then 10 else if c = 'b' then 11
  else if c = 'c' then 12 else if c = 'd' then 13 else if c = 'e' then 14
  else if c = 'f' then 15 else 16

/-- Fuelled lowercase-hex rendering (no leading zeros; fuel `≥ n`). -/
def toHexAux : ℕ → ℕ → List Char
  | 0, n => [hexDigitChar (n % 16)]
  | f + 1, n =>
    if n < 16 then [hexDigitChar n]
    else toHexAux f (n / 16) ++ [hexDigitChar (n % 16)]

/-- Lowercase hex rendering of a hextet (`'%x' % n`): no leading zeros,
`"0"` for zero. -/
def toHex (n : ℕ) : List Char := toHexAux n n

/-- Accumulating hex parse of a digit string. -/
def ofHexF (cs : List Char) : ℕ := cs.foldl (fun acc c => acc * 16 + hexCharVal c) 0

/-- Parse one hextet group: nonempty, all hex digits. -/
def ofHexGroup (cs : List Char) : Option ℕ :=
  if cs ≠ [] ∧ cs.all (fun c => decide (hexCharVal c < 16)) then some (ofHexF cs)
  else none

/-- Decimal digit characters. -/
def decDigitChar : ℕ → Char
  | 0 => '0' | 1 => '1' | 2 => '2' | 3 => '3' | 4 => '4'
  | 5 => '5' | 6 => '6' | 7 => '7' | 8 => '8' | 9 => '9'
  | _ => '?'

/-- Value of a decimal digit character (`10` for non-digits). -/
def decCharVal (c : Char) : ℕ :=
  if c = '0' then 0 else if c = '1' then 1 else if c = '2' then 2
  else if c = '3' then 3 else if c = '4' then 4 else if c = '5' then 5
  else if c = '6' then 6 else if c = '7' then 7 else if c = '8' then 8
  else if c = '9' then 9 else 10

/-- Fuelled decimal rendering (fuel `≥ n`). -/
def toDecAux : ℕ → ℕ → List Char
  | 0, n => [decDigitChar (n % 10)]
  | f + 1, n =>
    if n < 10 then [decDigitChar n]
    else toDecAux f (n / 10) ++ [decDigitChar (n % 10)]

/-- Decimal rendering of an octet. -/
def toDec (n : ℕ) : List Char := toDecAux n n

/-- Accumulating decimal parse. -/
def ofDecF (cs : List Char) : ℕ := cs.foldl (fun acc c => acc * 10 + decCharVal c) 0

/-- Parse one dotted-quad octet group: nonempty, all decimal digits. -/
def ofDecGroup (cs : List Char) : Option ℕ :=
  if cs ≠ [] ∧ cs.all (fun c => decide (decCharVal c < 10)) then some (ofDecF cs)
  else none

/-- The 8 big-endian hextets of a 128-bit integer. -/
def toHextets (n : ℕ) : List ℕ := natToBE 65536 8 n

/-- Recombine 8 big-endian hextets. -/
def fromHextets (l : List ℕ) : ℕ := beToNat 65536 l

/-- Dotted-decimal rendering of a 32-bit integer (`inet_ntoa`). -/
def ipv4_int_to_chars (n : ℕ) : List Char :=
  List.intercalate ['.']
    [toDec (n / 2 ^ 24 % 256), toDec (n / 2 ^ 16 % 256), toDec (n / 2 ^ 8 % 256), toDec (n % 256)]

/-- Dotted-quad parse of an IPv4 string: exactly four decimal groups,
each `≤ 255`. -/
def ipv4_chars_to_int (s : List Char) : Option ℕ :=
  match s.splitOn '.' with
  | [a, b, c, d] =>
    match ofDecGroup a, ofDecGroup b, ofDecGroup c, ofDecGroup d with
    | some x, some y, some z, some w =>
      if x ≤ 255 ∧ y ≤ 255 ∧ z ≤ 255 ∧ w ≤ 255 then
        some (x * 2 ^ 24 + y * 2 ^ 16 + z * 2 ^ 8 + w)
      else none
    | _, _, _, _ => none
  | _ => none

/-- Length of the zero run of `ws` starting at index `i`. -/
def runLen (ws : List ℕ) (i : ℕ) : ℕ := ((ws.drop i).takeWhile (fun x => x == 0)).length

/-- Longest run of zero hextets when of length at least 2 (the run a
renderer compresses to `::`); `none` when no such run exists. -/
def bestRun (ws : List ℕ) : Option (ℕ × ℕ) :=
  let best := (List.range ws.length).foldl
    (fun acc i => if runLen ws i > acc.2 then (i, runLen ws i) else acc) (0, 0)
  if 2 ≤ best.2 then some best else none

/-- Canonical IPv6 rendering of 8 hextets: lowercase hex groups joined
by `':'`, with the longest zero run of length ≥ 2 compressed to `::`. -/
def ipv6_chars_of_hextets (ws : List ℕ) : List Char :=
  match bestRun ws with
  | none => List.intercalate [':'] (ws.map toHex)
  | some (i, l) =>
    let before := (ws.take i).map toHex
    let after := (ws.drop (i + l)).map toHex
    let parts :=
      match before, after with
      | [], [] => [[], [], []]
      | [], _ :: _ => [] :: [] :: after
      | _ :: _, [] => before ++ [[], []]
      | _ :: _, _ :: _ => before ++ [[]] ++ after
    List.intercalate [':'] parts

/-- Parse the `':'`-separated groups of an IPv6 string back into 8
hextets, decompressing a `::` when empty groups are present. -/
def parse6Groups (parts : List (List Char)) : Option (List ℕ) :=
  if parts.any List.isEmpty then
    let before := parts.takeWhile (fun p => !p.isEmpty)
    let after := (parts.reverse.takeWhile (fun p => !p.isEmpty)).reverse
    if before.length + after.length < 8 ∧
        parts = before ++ List.replicate (parts.length - before.length - after.length) [] ++ after
    then
      match mapO ofHexGroup before, mapO ofHexGroup after with
      | some xs, some ys =>
        some (xs ++ List.replicate (8 - before.length - after.length) 0 ++ ys)
      | _, _ => none
    else none
  else if parts.length = 8 then mapO ofHexGroup parts
  else none

/-- Parse an IPv6 string to its 128-bit integer. -/
def ipv6_chars_to_int (s : List Char) : Option ℕ :=
  (parse6Groups (s.splitOn ':')).map fromHextets

/-- Modelled from the spec: `ip_int_to_str` (absent from
`src/whip/util.py`).  Addresses in the `::ffff:0:0/96` block render as
IPv4 dotted notation; all others render as IPv6. -/
def ip_int_to_str (n : ℕ) : List Char :=
  if n / 2 ^ 32 = 0xffff then ipv4_int_to_chars (n % 2 ^ 32)
  else ipv6_chars_of_hextets (toHextets n)

/-- Modelled from the spec: `ip_str_to_int` (absent from
`src/whip/util.py`).  IPv4 strings are recognized and mapped by
prefixing with `00…00 ffff`; `none` models the malformed-address
error. -/
def ip_str_to_int (s : List Char) : Option ℕ :=
  if ':' ∈ s then ipv6_chars_to_int s
  else (ipv4_chars_to_int s).map (fun v => 0xffff * 2 ^ 32 + v)

/-- Modelled from the spec: `ip_str_to_packed` (absent from
`src/whip/util.py`). -/
def ip_str_to_packed (s : List Char) : Option (List ℕ) :=
  (ip_str_to_int s).map ip_int_to_packed

/-- Modelled from the spec: `ip_packed_to_str` (absent from
`src/whip/util.py`). -/
def ip_packed_to_str (b : List ℕ) : List Char :=
  ip_int_to_str (ip_packed_to_int b)

/-! ### Records and the Database (`whip/db.py`)

Infosets are `Dict ℕ ℕ` with the distinguished `'datetime'` key modelled
as key `0`; datetime strings (whose lexicographic order is chronological)
are modelled as naturals.  The Msgpack/JSON encodings are deterministic
injective codecs, so a stored blob is modelled by the data it encodes:
a record value is the 4-tuple `(packed begin, latest infoset, latest
datetime, history diffs)` and byte-identity of blobs is field identity. -/

/-- Infosets: flat dicts over key/value naturals, `'datetime'` = key 0. -/
abbrev NDict := Dict ℕ ℕ

/-- `d['datetime']` (`none` models the `KeyError`). -/
def getDt (d : NDict) : Option ℕ := dlookup d 0

/-- The Msgpack-encoded record value: packed begin address, latest
infoset (JSON blob), latest datetime, history diffs (Msgpack blob). -/
structure ValueRec where
  begin_packed : List ℕ
  latest : NDict
  latest_dt : ℕ
  history : List (DictPatch ℕ ℕ)
deriving DecidableEq

/-- The `ExistingRecord` helper: the unpacked `(key, value)` pair. -/
structure ERecord where
  begin_packed : List ℕ
  end_packed : List ℕ
  latest : NDict
  latest_dt : ℕ
  history : List (DictPatch ℕ ℕ)
deriving DecidableEq

/-- `ExistingRecord(key, value)`. -/
def erFromKV (k : List ℕ) (v : ValueRec) : ERecord :=
  ⟨v.begin_packed, k, v.latest, v.latest_dt, v.history⟩

/-- `build_key_value`: key is the packed end address; the value packs
the packed begin address with the latest blob, latest datetime and
history blob. -/
def build_key_value (b e : ℕ) (latest : NDict) (dt : ℕ)
    (hist : List (DictPatch ℕ ℕ)) : List ℕ × ValueRec :=
  (ip_int_to_packed e, ⟨ip_int_to_packed b, latest, dt, hist⟩)

/-- `make_squash_key`: the infoset with the `'datetime'` key removed. -/
def stripDt (d : NDict) : NDict := d.filter (fun kv => decide (kv.1 ≠ 0))

/-- Python `d1 == d2` as a boolean (pointwise lookups both ways). -/
def dictBeq (d1 d2 : NDict) : Bool :=
  d1.all (fun kv => dlookup d2 kv.1 == some kv.2) &&
    d2.all (fun kv => dlookup d1 kv.1 == some kv.2)

/-- Helper of `unique_justseen`: drop elements whose squash key equals
the previous element's squash key. -/
def ujsGo (k : NDict) : List NDict → List NDict
  | [] => []
  | b :: t => if dictBeq (stripDt b) k then ujsGo (stripDt b) t else b :: ujsGo (stripDt b) t

/-- Modelled from the spec (§4.4): `unique_justseen(dicts,
key=make_squash_key)` is imported by `db.py` from `whip.util` but absent
from `src/whip/util.py`; it keeps the first element of every run of
consecutive infosets equal modulo `'datetime'`. -/
def unique_justseen : List NDict → List NDict
  | [] => []
  | a :: t => a :: ujsGo (stripDt a) t

/-- Stable insertion of an infoset into a datetime-sorted list (before
the first strictly-later element). -/
def insByDt (x : NDict) : List NDict → List NDict
  | [] => [x]
  | y :: t =>
    if (getDt x).getD 0 ≤ (getDt y).getD 0 then x :: y :: t else y :: insByDt x t

/-- `dicts.sort(key=itemgetter('datetime'))`: stable sort by datetime. -/
def sortByDt (l : List NDict) : List NDict := l.foldr insByDt []

/-- `build_history`: sort by datetime, deduplicate consecutive infosets
modulo datetime, reverse, and make the incremental (reverse) diff chain;
returns the latest infoset, its datetime (`latest['datetime']`) and the
diffs.  `none` models a raised `KeyError`/`StopIteration`. -/
def build_history (ds : List NDict) : Option (NDict × ℕ × List (DictPatch ℕ ℕ)) :=
  match mapO getDt ds with
  | none => none
  | some _ =>
    match dict_diff_incremental ((unique_justseen (sortByDt ds)).reverse) with
    | none => none
    | some (latest, diffs) =>
      match getDt latest with
      | none => none
      | some dt => some (latest, dt, diffs)

/-- `ExistingRecord.iter_versions()`: the latest infoset followed by the
incremental patches of the history blob. -/
def versionsOf (latest : NDict) (hist : List (DictPatch ℕ ℕ)) : Option (List NDict) :=
  match dict_patch_incremental latest hist with
  | none => none
  | some older => some (latest :: older)

/-- `build_record(begin_ip_int, end_ip_int, dicts, existing)`: with no
new dicts reuse the existing blobs verbatim under updated bounds; with
no existing record build the history from the new dicts; otherwise fold
the existing versions in and rebuild.  `none` models the
`assert dicts or existing` failure (or a raised error further down). -/
def build_record (b e : ℕ) (dicts : List NDict) (existing : Option ERecord) :
    Option (List ℕ × ValueRec) :=
  match dicts, existing with
  | [], none => none
  | [], some ex => some (build_key_value b e ex.latest ex.latest_dt ex.history)
  | _ :: _, none =>
    match build_history dicts with
    | none => none
    | some (latest, dt, diffs) => some (build_key_value b e latest dt diffs)
  | _ :: _, some ex =>
    match versionsOf ex.latest ex.history with
    | none => none
    | some vers =>
      match build_history (dicts ++ vers) with
      | none => none
      | some (latest, dt, diffs) => some (build_key_value b e latest dt diffs)

/-- Python `bytes` comparison (lexicographic, shorter prefix first). -/
def bytesLt : List ℕ → List ℕ → Bool
  | [], [] => false
  | [], _ :: _ => true
  | _ :: _, [] => false
  | a :: as1, b :: bs1 => if a < b then true else if b < a then false else bytesLt as1 bs1

/-- The backing LevelDB, a key-sorted association list. -/
abbrev Store := List (List ℕ × ValueRec)

/-- `db.put(key, value)`: insert or replace, keeping keys sorted. -/
def storePut : Store → List ℕ → ValueRec → Store
  | [], k, v => [(k, v)]
  | (k', v') :: t, k, v =>
    if bytesLt k k' then (k, v) :: (k', v') :: t
    else if k = k' then (k, v) :: t
    else (k', v') :: storePut t k v

/-- `Database.iter_records()`: each stored record as a
`(begin_int, end_int, ExistingRecord)` triple for `merge_ranges`. -/
def iter_records (st : Store) : List (ℕ × ℕ × (NDict ⊕ ERecord)) :=
  st.map (fun kv =>
    (ip_packed_to_int kv.2.begin_packed, ip_packed_to_int kv.1, Sum.inr (erFromKV kv.1 kv.2)))

/-- The in-loop scan of `Database.load`: find and remove the first
`ExistingRecord` of the payload list. -/
def popExisting : List (NDict ⊕ ERecord) → Option ERecord × List (NDict ⊕ ERecord)
  | [] => (none, [])
  | Sum.inr er :: t => (some er, t)
  | Sum.inl d :: t =>
    match popExisting t with
    | (ex, rest) => (ex, Sum.inl d :: rest)

/-- Remaining payloads must all be plain infosets (`none` models the
`TypeError` a second `ExistingRecord` would raise downstream). -/
def onlyDicts : List (NDict ⊕ ERecord) → Option (List NDict)
  | [] => some []
  | Sum.inl d :: t =>
    match onlyDicts t with
    | none => none
    | some ds => some (d :: ds)
  | Sum.inr _ :: _ => none

/-- The write loop of `Database.load`: build and `put` one record per
merged sub-range. -/
def processMerged (st : Store) : List (ℕ × ℕ × List (NDict ⊕ ERecord)) → Option Store
  | [] => some st
  | (b, e, items) :: rest =>
    match popExisting items with
    | (ex, others) =>
      match onlyDicts others with
      | none => none
      | some ds =>
        match build_record b e ds ex with
        | none => none
        | some (k, v) => processMerged (storePut st k v) rest

/-- The `datetime` argument of `Database.lookup`: `None`, `'all'`, or a
timestamp string. -/
inductive QueryDt
  | latest
  | all
  | atTime (t : ℕ)
deriving DecidableEq

/-- A lookup response body (JSON bytes modelled by the data they
encode): one infoset, or the `{'history': [...]}` object. -/
inductive Resp
  | doc (d : NDict)
  | hist (l : List NDict)
deriving DecidableEq

/-- `Database` handle state: the backing store, the cached forward
iterator (a snapshot of the store at iterator creation; `none` =
invalidated/absent), and the `functools.lru_cache` of `lookup`, most
recent first. -/
structure DBState where
  store : Store
  iterSnapshot : Option Store
  cache : List ((List Char × QueryDt) × Option Resp)
deriving DecidableEq

/-- `functools.lru_cache` capacity of `Database.lookup` (`128 * 1024`). -/
def CACHE_SIZE : ℕ := 131072

/-- Cache lookup; a hit moves the entry to the most-recent position. -/
def lruGet (c : List ((List Char × QueryDt) × Option Resp)) (k : List Char × QueryDt) :
    Option (Option Resp × List ((List Char × QueryDt) × Option Resp)) :=
  match c.find? (fun e => decide (e.1 = k)) with
  | none => none
  | some e => some (e.2, e :: c.filter (fun e' => decide (e'.1 ≠ k)))

/-- Cache insert at the most-recent position, evicting beyond capacity. -/
def lruPut (c : List ((List Char × QueryDt) × Option Resp)) (k : List Char × QueryDt)
    (r : Option Resp) : List ((List Char × QueryDt) × Option Resp) :=
  (((k, r) :: c.filter (fun e' => decide (e'.1 ≠ k)))).take CACHE_SIZE

/-- The uncached body of `Database.lookup`: seek the iterator to the
first key `≥ ip`, check the range bounds, and dispatch on the datetime
mode.  The outer `none` models a raised error; `some none` is the
no-hit result. -/
def lookupCore (snap : Store) (packed : List ℕ) (dt : QueryDt) : Option (Option Resp) :=
  match snap.find? (fun kv => !(bytesLt kv.1 packed)) with
  | none => some none
  | some (_, v) =>
    if bytesLt packed v.begin_packed then some none
    else
      match dt with
      | .latest => some (some (.doc v.latest))
      | .all =>
        match versionsOf v.latest v.history with
        | none => none
        | some vers => some (some (.hist vers))
      | .atTime t =>
        if v.latest_dt ≤ t then some (some (.doc v.latest))
        else
          match versionsOf v.latest v.history with
          | none => none
          | some vers =>
            match mapO getDt vers with
            | none => none
            | some dts =>
              match (vers.zip dts).find? (fun pd => decide (pd.2 ≤ t)) with
              | some pd => some (some (.doc pd.1))
              | none => some none

/-- `Database.lookup(ip, datetime)` with its `functools.lru_cache`: a
cached result is returned as-is; otherwise the address is packed (the
outer `none` models the malformed-address error, which the cache does
not record), the iterator snapshot is created if absent, the body runs
against the snapshot, and the result is cached. -/
def db_lookup (s : DBState) (ip : List Char) (dt : QueryDt) :
    Option (Option Resp × DBState) :=
  match lruGet s.cache (ip, dt) with
  | some (r, c') => some (r, { s with cache := c' })
  | none =>
    match ip_str_to_packed ip with
    | none => none
    | some packed =>
      let snap := s.iterSnapshot.getD s.store
      match lookupCore snap packed dt with
      | none => none
      | some r =>
        some (r, { s with iterSnapshot := some snap, cache := lruPut s.cache (ip, dt) r })

/-- `Database.load(*iterables)`: with no iterables do nothing; else
merge the new streams plus `iter_records` of the current store, write
every merged sub-range, and reset the cached iterator (`self.iter =
None`) — the `lru_cache` of `lookup` is left untouched, exactly as in
the source. -/
def db_load (s : DBState) (iterables : List (List (ℕ × ℕ × NDict))) : Option DBState :=
  match iterables with
  | [] => some s
  | _ :: _ =>
    let streams :=
      iterables.map (List.map (fun r => (r.1, r.2.1, (Sum.inl r.2.2 : NDict ⊕ ERecord)))) ++
        [iter_records s.store]
    match merge_ranges streams with
    | none => none
    | some merged =>
      match processMerged s.store merged with
      | none => none
      | some st' => some { store := st', iterSnapshot := none, cache := s.cache }

/-! ### The HTTP handler (`whip/web.py`) -/

/-- The stdlib collaborator `socket.inet_aton`, modelled at interface
level as the dotted-quad parser returning 4 packed bytes. -/
def inet_aton_chars (s : List Char) : Option (List ℕ) :=
  (ipv4_chars_to_int s).map (natToBE 256 4)

/-- A Flask response of the handler: `abort(400)`, `abort(404)`, or a
200 response carrying the JSON body bytes. -/
inductive HResp
  | badRequest
  | notFound
  | ok (body : List Char)
deriving DecidableEq

/-- The `/ip/<ip>` route handler of `whip/web.py`: parse the address
with `inet_aton` (`abort(400)` on failure), call `db.lookup` with the
packed address (no datetime argument), `abort(404)` on a miss, and
return the JSON body on a hit.  The database is the collaborator
`dbLookup`. -/
def web_lookup (dbLookup : List ℕ → Option (List Char)) (ip : List Char) : HResp :=
  match inet_aton_chars ip with
  | none => .badRequest
  | some k =>
    match dbLookup k with
    | none => .notFound
    | some j => .ok j

set_option linter.unusedSectionVars false

/-! ### Lemmas: dict lookups, updates, deletions -/

variable {K V : Type} [DecidableEq K]

theorem dlookup_eq_none_iff (d : Dict K V) (k : K) :
    dlookup d k = none ↔ k ∉ d.map Prod.fst := by
  induction d with
  | nil => simp [dlookup]
  | cons kv t ih =>
    obtain ⟨k', v⟩ := kv
    simp only [dlookup, List.map_cons, List.mem_cons]
    by_cases h : k' = k
    · subst h; simp
    · rw [if_neg h, ih]
      constructor
      · rintro hn (rfl | hm)
        · exact h rfl
        · exact hn hm
      · intro hn hm
        exact hn (Or.inr hm)

theorem dlookup_mem {d : Dict K V} {k : K} {v : V} (h : dlookup d k = some v) :
    (k, v) ∈ d := by
  induction d with
  | nil => simp [dlookup] at h
  | cons kv t ih =>
    obtain ⟨k', v'⟩ := kv
    simp only [dlookup] at h
    by_cases hk : k' = k
    · subst hk
      rw [if_pos rfl] at h
      cases h
      exact List.mem_cons_self _ _
    · rw [if_neg hk] at h
      exact List.mem_cons_of_mem _ (ih h)

theorem dlookup_of_mem_nodup {d : Dict K V} {k : K} {v : V}
    (hmem : (k, v) ∈ d) (hnd : NodupKeys d) : dlookup d k = some v := by
  induction d with
  | nil => simp at hmem
  | cons kv t ih =>
    obtain ⟨k', v'⟩ := kv
    simp only [NodupKeys, List.map_cons, List.nodup_cons] at hnd
    rcases List.mem_cons.mp hmem with h | h
    · rw [show k = k' from (Prod.mk.injEq .. ▸ h).1, show v = v' from (Prod.mk.injEq .. ▸ h).2]
      simp [dlookup]
    · have hk : k' ≠ k := by
        rintro rfl
        exact hnd.1 (List.mem_map.mpr ⟨_, h, rfl⟩)
      simp only [dlookup, if_neg hk]
      exact ih h hnd.2

theorem dlookup_dset (d : Dict K V) (k : K) (v : V) (k' : K) :
    dlookup (dset d k v) k' = if k = k' then some v else dlookup d k' := by
  induction d with
  | nil => simp [dset, dlookup]
  | cons kv t ih =>
    obtain ⟨k1, v1⟩ := kv
    by_cases h : k1 = k
    · subst h
      simp only [dset, if_pos rfl]
      by_cases h' : k1 = k'
      · subst h'; simp [dlookup]
      · simp only [dlookup, if_neg h']
    · simp only [dset, if_neg h]
      by_cases h' : k1 = k'
      · subst h'
        simp only [dlookup]
        rw [if_neg (fun hh : k = k1 => h hh.symm)]
        simp
      · simp only [dlookup, if_neg h', ih]

theorem dset_keys (d : Dict K V) (k : K) (v : V) :
    (dset d k v).map Prod.fst = if k ∈ d.map Prod.fst then d.map Prod.fst
      else d.map Prod.fst ++ [k] := by
  induction d with
  | nil => simp [dset]
  | cons kv t ih =>
    obtain ⟨k1, v1⟩ := kv
    by_cases h : k1 = k
    · subst h; simp [dset]
    · simp only [dset, if_neg h, List.map_cons, ih, List.mem_cons]
      have hne : ¬ k = k1 := fun hh => h hh.symm
      by_cases h' : k ∈ t.map Prod.fst <;> simp [hne, h']

theorem dset_nodup {d : Dict K V} (hnd : NodupKeys d) (k : K) (v : V) :
    NodupKeys (dset d k v) := by
  unfold NodupKeys at *
  rw [dset_keys]
  by_cases h : k ∈ d.map Prod.fst
  · rw [if_pos h]; exact hnd
  · rw [if_neg h, List.nodup_append]
    refine ⟨hnd, List.nodup_singleton _, ?_⟩
    intro a ha hb
    rw [List.mem_singleton] at hb
    subst hb
    exact h ha

theorem dupdate_nodup {d : Dict K V} (mods : Dict K V) (hnd : NodupKeys d) :
    NodupKeys (dupdate d mods) := by
  induction mods generalizing d with
  | nil => exact hnd
  | cons kv t ih => exact ih (dset_nodup hnd kv.1 kv.2)

theorem dlookup_dupdate (d mods : Dict K V) (hm : NodupKeys mods) (k : K) :
    dlookup (dupdate d mods) k =
      match dlookup mods k with
      | some v => some v
      | none => dlookup d k := by
  induction mods generalizing d with
  | nil => simp [dupdate, dlookup]
  | cons kv t ih =>
    obtain ⟨k1, v1⟩ := kv
    simp only [NodupKeys, List.map_cons, List.nodup_cons] at hm
    have step : dupdate d ((k1, v1) :: t) = dupdate (dset d k1 v1) t := rfl
    rw [step, ih _ hm.2]
    by_cases h : k1 = k
    · subst h
      have hnone : dlookup t k1 = none := (dlookup_eq_none_iff t k1).mpr hm.1
      simp [dlookup, hnone, dlookup_dset]
    · simp only [dlookup, if_neg h, dlookup_dset, if_neg h]

theorem ddel_isSome (d : Dict K V) (k : K) :
    (ddel d k).isSome ↔ (dlookup d k).isSome := by
  induction d with
  | nil => simp [ddel, dlookup]
  | cons kv t ih =>
    obtain ⟨k1, v1⟩ := kv
    by_cases h : k1 = k <;> simp [ddel, dlookup, h, ih]

theorem ddel_sublist {d : Dict K V} {k : K} {d' : Dict K V}
    (h : ddel d k = some d') : List.Sublist d' d := by
  induction d generalizing d' with
  | nil => simp [ddel] at h
  | cons kv t ih =>
    obtain ⟨k1, v1⟩ := kv
    by_cases hk : k1 = k
    · simp only [ddel, if_pos hk] at h
      cases h
      exact List.sublist_cons_self _ _
    · simp only [ddel, if_neg hk] at h
      cases ht : ddel t k with
      | none => rw [ht] at h; cases h
      | some t' =>
        rw [ht] at h
        simp only [Option.map_some', Option.some.injEq] at h
        cases h
        exact List.Sublist.cons₂ _ (ih ht)

theorem ddel_nodup {d : Dict K V} {k : K} {d' : Dict K V}
    (hnd : NodupKeys d) (h : ddel d k = some d') : NodupKeys d' :=
  List.Nodup.sublist ((ddel_sublist h).map Prod.fst) hnd

theorem dlookup_ddel {d : Dict K V} {k : K} {d' : Dict K V}
    (hnd : NodupKeys d) (h : ddel d k = some d') (k' : K) :
    dlookup d' k' = if k' = k then none else dlookup d k' := by
  induction d generalizing d' with
  | nil => simp [ddel] at h
  | cons kv t ih =>
    obtain ⟨k1, v1⟩ := kv
    simp only [NodupKeys, List.map_cons, List.nodup_cons] at hnd
    by_cases hk : k1 = k
    · subst hk
      simp only [ddel, if_pos rfl] at h
      cases h
      by_cases h' : k' = k1
      · subst h'
        rw [if_pos rfl]
        exact (dlookup_eq_none_iff _ _).mpr hnd.1
      · rw [if_neg h']
        simp only [dlookup, if_neg (fun hh : k1 = k' => h' hh.symm)]
    · simp only [ddel, if_neg hk] at h
      cases ht : ddel t k with
      | none => rw [ht] at h; cases h
      | some t' =>
        rw [ht] at h
        simp only [Option.map_some', Option.some.injEq] at h
        cases h
        by_cases h1 : k1 = k'
        · subst h1
          rw [if_neg hk]
          simp [dlookup]
        · simp only [dlookup, if_neg h1]
          rw [ih hnd.2 ht]

/-! ### Lemmas: diff/patch round trip -/

theorem dlookup_filter (d : Dict K V) (p : K × V → Bool) (hnd : NodupKeys d) (k : K) :
    dlookup (d.filter p) k =
      match dlookup d k with
      | some v => if p (k, v) then some v else none
      | none => none := by
  induction d with
  | nil => simp [dlookup]
  | cons kv t ih =>
    obtain ⟨k1, v1⟩ := kv
    simp only [NodupKeys, List.map_cons, List.nodup_cons] at hnd
    by_cases h : k1 = k
    · subst h
      have hnone : dlookup (t.filter p) k1 = none := by
        refine (dlookup_eq_none_iff _ _).mpr <| fun hm => hnd.1 ?_
        rcases List.mem_map.mp hm with ⟨x, hx, hx1⟩
        exact List.mem_map.mpr ⟨x, List.mem_of_mem_filter hx, hx1⟩
      cases hp : p (k1, v1) with
      | true =>
        rw [List.filter_cons_of_pos hp]
        simp [dlookup, hp]
      | false =>
        rw [List.filter_cons_of_neg (by simp [hp])]
        simp [dlookup, hp, hnone]
    · cases hp : p (k1, v1) with
      | true =>
        rw [List.filter_cons_of_pos hp]
        simp only [dlookup, if_neg h]
        exact ih hnd.2
      | false =>
        rw [List.filter_cons_of_neg (by simp [hp])]
        simp only [dlookup, if_neg h]
        exact ih hnd.2

theorem filter_keys_nodup (d : Dict K V) (p : K × V → Bool) (hnd : NodupKeys d) :
    ((d.filter p).map Prod.fst).Nodup :=
  List.Nodup.sublist ((List.filter_sublist d).map Prod.fst) hnd

theorem diff_mods_nodup [DecidableEq V] (d1 d2 : Dict K V) (hb : NodupKeys d2) :
    NodupKeys (dict_diff d1 d2).modifications :=
  filter_keys_nodup d2 _ hb

theorem diff_mods_lookup [DecidableEq V] (d1 d2 : Dict K V) (hb : NodupKeys d2) (k : K) :
    dlookup (dict_diff d1 d2).modifications k =
      match dlookup d2 k with
      | some v => if dlookup d1 k = some v then none else some v
      | none => none := by
  show dlookup (d2.filter _) k = _
  rw [dlookup_filter d2 _ hb k]
  cases dlookup d2 k with
  | none => rfl
  | some v =>
    by_cases h : dlookup d1 k = some v <;> simp [h]

theorem diff_dels_nodup [DecidableEq V] (d1 d2 : Dict K V) (ha : NodupKeys d1) :
    (dict_diff d1 d2).deletions.Nodup :=
  filter_keys_nodup d1 _ ha

theorem diff_dels_mem [DecidableEq V] (d1 d2 : Dict K V) (ha : NodupKeys d1) (k : K) :
    k ∈ (dict_diff d1 d2).deletions ↔
      (dlookup d1 k).isSome ∧ dlookup d2 k = none := by
  show k ∈ (d1.filter _).map Prod.fst ↔ _
  constructor
  · intro hm
    rcases List.mem_map.mp hm with ⟨⟨k1, v1⟩, hx, hx1⟩
    cases hx1
    have hmem := List.mem_of_mem_filter hx
    have hp := List.of_mem_filter hx
    simp only [decide_eq_true_eq] at hp
    exact ⟨by rw [dlookup_of_mem_nodup hmem ha]; rfl, hp⟩
  · rintro ⟨h1, h2⟩
    obtain ⟨v, hv⟩ := Option.isSome_iff_exists.mp h1
    refine List.mem_map.mpr ⟨(k, v), List.mem_filter.mpr ⟨dlookup_mem hv, ?_⟩, rfl⟩
    simp [h2]

theorem ddelAll_spec : ∀ (ks : List K) (d : Dict K V), NodupKeys d → ks.Nodup →
    (∀ k ∈ ks, (dlookup d k).isSome) →
    ∃ d', ddelAll d ks = some d' ∧ NodupKeys d' ∧
      ∀ k', dlookup d' k' = if k' ∈ ks then none else dlookup d k' := by
  intro ks
  induction ks with
  | nil =>
    intro d hnd _ _
    exact ⟨d, rfl, hnd, by simp⟩
  | cons k ks ih =>
    intro d hnd hks hpres
    have h1 : (ddel d k).isSome := (ddel_isSome d k).mpr (hpres k (by simp))
    obtain ⟨d₁, hd₁⟩ := Option.isSome_iff_exists.mp h1
    have hnd₁ := ddel_nodup hnd hd₁
    have hlook := dlookup_ddel hnd hd₁
    simp only [List.nodup_cons] at hks
    have hpres₁ : ∀ k' ∈ ks, (dlookup d₁ k').isSome := by
      intro k' hk'
      rw [hlook k', if_neg (fun hh : k' = k => hks.1 (hh ▸ hk'))]
      exact hpres k' (by simp [hk'])
    obtain ⟨d', hall, hnd', hlook'⟩ := ih d₁ hnd₁ hks.2 hpres₁
    refine ⟨d', ?_, hnd', ?_⟩
    · show ddelAll d (k :: ks) = some d'
      simp only [ddelAll, hd₁]
      exact hall
    · intro k'
      rw [hlook' k', hlook k']
      by_cases h1' : k' ∈ ks
      · simp [h1']
      · by_cases h2 : k' = k <;> simp [h1', h2]

theorem dict_patch_diff_general [DecidableEq V] (a a' b : Dict K V) (ha : NodupKeys a) (ha' : NodupKeys a')
    (hb : NodupKeys b) (heq : dictEq a a') :
    ∃ c, dict_patch a (dict_diff a' b) = some c ∧ NodupKeys c ∧ dictEq c b := by
  have hmods_nd := diff_mods_nodup a' b hb
  have hu_nd : NodupKeys (dupdate a (dict_diff a' b).modifications) := dupdate_nodup _ ha
  have hu : ∀ k, dlookup (dupdate a (dict_diff a' b).modifications) k =
      match dlookup (dict_diff a' b).modifications k with
      | some v => some v
      | none => dlookup a k := fun k => dlookup_dupdate a _ hmods_nd k
  have hpres : ∀ k ∈ (dict_diff a' b).deletions,
      (dlookup (dupdate a (dict_diff a' b).modifications) k).isSome := by
    intro k hk
    obtain ⟨h1, h2⟩ := (diff_dels_mem a' b ha' k).mp hk
    rw [hu k, diff_mods_lookup a' b hb k, h2]
    rw [heq k]
    exact h1
  obtain ⟨c, hall, hnd', hlook'⟩ :=
    ddelAll_spec (dict_diff a' b).deletions _ hu_nd (diff_dels_nodup a' b ha') hpres
  refine ⟨c, hall, hnd', fun k => ?_⟩
  rw [hlook' k]
  by_cases hdel : k ∈ (dict_diff a' b).deletions
  · obtain ⟨_, h2⟩ := (diff_dels_mem a' b ha' k).mp hdel
    rw [if_pos hdel, h2]
  · rw [if_neg hdel, hu k, diff_mods_lookup a' b hb k]
    cases hbk : dlookup b k with
    | none =>
      rw [heq k]
      cases hak : dlookup a' k with
      | none => rfl
      | some w =>
        exact absurd ((diff_dels_mem a' b ha' k).mpr ⟨by rw [hak]; rfl, hbk⟩) hdel
    | some v =>
      by_cases hav : dlookup a' k = some v
      · have h' : dlookup a k = some v := by rw [heq k]; exact hav
        simp [hav, h']
      · simp [hav]

theorem dict_patch_incremental_spec [DecidableEq V] :
    ∀ (xs : List (Dict K V)) (x x' : Dict K V), NodupKeys x → NodupKeys x' → dictEq x x' →
    (∀ d ∈ xs, NodupKeys d) →
    ∃ ys, dict_patch_incremental x (List.zipWith dict_diff (x' :: xs) xs) = some ys ∧
      List.Forall₂ dictEq ys xs := by
  intro xs
  induction xs with
  | nil => exact fun x x' _ _ _ _ => ⟨[], rfl, List.Forall₂.nil⟩
  | cons b rest ih =>
    intro x x' hx hx' heq hmem
    have hb : NodupKeys b := hmem b (by simp)
    obtain ⟨c, hc, hcnd, hcb⟩ := dict_patch_diff_general x x' b hx hx' hb heq
    obtain ⟨ys, hys, hall⟩ := ih c b hcnd hb hcb (fun d hd => hmem d (by simp [hd]))
    refine ⟨c :: ys, ?_, List.Forall₂.cons hcb hall⟩
    show dict_patch_incremental x (dict_diff x' b :: List.zipWith dict_diff (b :: rest) rest) =
      some (c :: ys)
    simp only [dict_patch_incremental, hc, hys]

/-- C3: for all flat dicts `a` and `b` (no duplicate keys, shallow value
equality), `dict_patch(a, dict_diff(a, b))` raises nothing and its
result equals `b` as a dict. -/
theorem C3_diff_patch_roundtrip (a b : Dict ℕ ℕ) (ha : NodupKeys a) (hb : NodupKeys b) :
    ∃ c, dict_patch a (dict_diff a b) = some c ∧ dictEq c b := by
  obtain ⟨c, h1, _, h3⟩ := dict_patch_diff_general a a b ha ha hb (fun _ => rfl)
  exact ⟨c, h1, h3⟩

/-- Witness for C3 at `a = {0:1, 1:2, 2:3}`, `b = {1:5, 3:7}`. -/
theorem C3_diff_patch_roundtrip_witness :
    NodupKeys [(0, 1), (1, 2), (2, 3)] ∧ NodupKeys [(1, 5), (3, 7)] ∧
      ∃ c, dict_patch [(0, 1), (1, 2), (2, 3)] (dict_diff [(0, 1), (1, 2), (2, 3)] [(1, 5), (3, 7)]) =
          some c ∧ dictEq c [(1, 5), (3, 7)] :=
  ⟨by decide, by decide,
    C3_diff_patch_roundtrip [(0, 1), (1, 2), (2, 3)] [(1, 5), (3, 7)] (by decide) (by decide)⟩

/-- C4: for a non-empty sequence `x :: xs` of dicts, `dict_diff_incremental`
returns the first dict as base together with `n - 1` diffs, and
`[base]` followed by `dict_patch_incremental(base, diffs)` rebuilds the
sequence (as dicts). -/
theorem C4_incremental_roundtrip (x : Dict ℕ ℕ) (xs : List (Dict ℕ ℕ))
    (hnd : ∀ d ∈ x :: xs, NodupKeys d) :
    ∃ diffs ys, dict_diff_incremental (x :: xs) = some (x, diffs) ∧
      diffs.length = (x :: xs).length - 1 ∧
      dict_patch_incremental x diffs = some ys ∧
      List.Forall₂ dictEq (x :: ys) (x :: xs) := by
  obtain ⟨ys, hys, hall⟩ :=
    dict_patch_incremental_spec xs x x (hnd x (by simp)) (hnd x (by simp)) (fun _ => rfl)
      (fun d hd => hnd d (by simp [hd]))
  refine ⟨List.zipWith dict_diff (x :: xs) xs, ys, rfl, ?_, hys,
    List.Forall₂.cons (fun _ => rfl) hall⟩
  simp [List.length_zipWith]

/-- Witness for C4 at the sequence `[{0:1,1:1}, {0:2}, {0:2,2:9}]`. -/
theorem C4_incremental_roundtrip_witness :
    (∀ d ∈ [[(0, 1), (1, 1)], [(0, 2)], [(0, 2), (2, 9)]], NodupKeys d) ∧
      ∃ diffs ys,
        dict_diff_incremental [[(0, 1), (1, 1)], [(0, 2)], [(0, 2), (2, 9)]] =
            some ([(0, 1), (1, 1)], diffs) ∧
          diffs.length = 2 ∧
          dict_patch_incremental [(0, 1), (1, 1)] diffs = some ys ∧
          List.Forall₂ dictEq ([(0, 1), (1, 1)] :: ys) [[(0, 1), (1, 1)], [(0, 2)], [(0, 2), (2, 9)]] :=
  ⟨by decide, C4_incremental_roundtrip [(0, 1), (1, 1)] [[(0, 2)], [(0, 2), (2, 9)]] (by decide)⟩

/-! ### Claims on the patch store, the single-input shortcut, records -/

/-- C10: `dict_patch` with `inplace` left at `False` leaves the source
dict untouched: in the store model, the cell `r` holding the input dict
is unchanged by the call, and the returned reference `t` holds the
patched dict. -/
theorem C10_out_of_place_patch_frame (σ : List (Dict ℕ ℕ)) (r : ℕ)
    (p : DictPatch ℕ ℕ) (σ' : List (Dict ℕ ℕ)) (t : ℕ) (hr : r < σ.length)
    (h : dict_patch_at σ r p false = some (σ', t)) :
    σ'[r]? = σ[r]? ∧
      ∃ d', dict_patch (σ.getD r []) p = some d' ∧ σ'[t]? = some d' := by
  unfold dict_patch_at at h
  rw [show (if false then r else σ.length) = σ.length from rfl,
    show (if false then σ else σ ++ [σ.getD r []]) = σ ++ [σ.getD r []] from rfl] at h
  have hgd : (σ ++ [σ.getD r []]).getD σ.length [] = σ.getD r [] := by
    simp [List.getD]
  dsimp only at h
  rw [hgd] at h
  cases hd : dict_patch (σ.getD r []) p with
  | none => rw [hd] at h; cases h
  | some d' =>
    rw [hd] at h
    cases h
    refine ⟨?_, d', rfl, ?_⟩
    · rw [List.getElem?_set_ne (by omega)]
      exact List.getElem?_append_left hr
    · rw [List.getElem?_set_self]
      simp

/-- Witness for C10 at `σ = [{0:1}]`, patch `({0:2}, [])`. -/
theorem C10_out_of_place_patch_frame_witness :
    0 < ([[(0, 1)]] : List (Dict ℕ ℕ)).length ∧
      (([[(0, 1)], [(0, 2)]] : List (Dict ℕ ℕ))[0]? = ([[(0, 1)]] : List (Dict ℕ ℕ))[0]? ∧
        ∃ d', dict_patch (([[(0, 1)]] : List (Dict ℕ ℕ)).getD 0 []) ⟨[(0, 2)], []⟩ = some d' ∧
          ([[(0, 1)], [(0, 2)]] : List (Dict ℕ ℕ))[1]? = some d') :=
  ⟨by decide,
    C10_out_of_place_patch_frame [[(0, 1)]] 0 ⟨[(0, 2)], []⟩ [[(0, 1)], [(0, 2)]] 1
      (by decide) (by decide)⟩

/-- C9: with exactly one input iterable, `merge_ranges` passes every
triple through as `(begin, end, [payload])` in input order and can raise
nothing — the shortcut applies none of the multi-input assertions, so
this holds even for streams violating the contract. -/
theorem C9_single_input_shortcut (s : List (ℕ × ℕ × ℕ)) :
    merge_ranges [s] = some (s.map (fun r => (r.1, r.2.1, [r.2.2]))) := rfl

/-- C7: `build_record` with an empty list of new dicts returns the
packed end address as key and a value packing exactly the packed begin
address together with the existing record's latest blob, latest
datetime and history blob, all reused verbatim. -/
theorem C7_fast_path_blob_reuse (b e : ℕ) (ex : ERecord) :
    build_record b e [] (some ex) =
      some (ip_int_to_packed e,
        ⟨ip_int_to_packed b, ex.latest, ex.latest_dt, ex.history⟩) := rfl

/-! ### Claim on load/lookup visibility (`Database.load` / `Database.lookup`) -/

/-- C2 (failing run): on a fresh database, `lookup('::5', latest)`
misses and the miss is cached; `load` of a range covering `::5` then
succeeds (resetting only the iterator, never the `lru_cache`); the
repeated `lookup('::5', latest)` still answers the stale cached miss,
while the very same state with an emptied cache answers with the loaded
record — so a lookup after `load` does not see the load's writes for
arguments looked up before it. -/
theorem C2_stale_cache_after_load :
    (do
      let r1 ← db_lookup ⟨[], none, []⟩ [':', ':', '5'] .latest
      let s2 ← db_load r1.2 [[(0, 10, [(0, 7), (1, 42)])]]
      let r3 ← db_lookup s2 [':', ':', '5'] .latest
      let r4 ← db_lookup { s2 with cache := [] } [':', ':', '5'] .latest
      pure (r1.1, r3.1, r4.1)) =
      some (none, none, some (Resp.doc [(0, 7), (1, 42)])) := by decide

/-! ### Claims on the HTTP handler (`whip/web.py`) -/

/-- C8 (counterexample): on a database miss the handler answers
`abort(404)`, not a 200 response with an empty JSON object. -/
theorem C8_counterexample_miss_is_404 :
    web_lookup (fun _ => none) ['1', '.', '2', '.', '3', '.', '4'] = HResp.notFound ∧
      web_lookup (fun _ => none) ['1', '.', '2', '.', '3', '.', '4'] ≠ HResp.ok ['{', '}'] := by
  constructor
  · decide
  · decide

/-- C8 (amended): for every request `GET /ip/<address>`, the handler
answers 400 when `inet_aton` rejects the address; otherwise it forwards
only the packed 4-byte address (no datetime) to the database lookup and
answers 404 on a miss and 200 with the JSON body on a hit. -/
theorem C8_handler_behavior (db : List ℕ → Option (List Char)) (ip : List Char) :
    (inet_aton_chars ip = none → web_lookup db ip = .badRequest) ∧
      (∀ k, inet_aton_chars ip = some k →
        ((db k = none → web_lookup db ip = .notFound) ∧
          (∀ j, db k = some j → web_lookup db ip = .ok j))) := by
  refine ⟨fun h => by simp [web_lookup, h], fun k hk =>
    ⟨fun h => by simp [web_lookup, hk, h], fun j hj => by simp [web_lookup, hk, hj]⟩⟩

/-- Witness for C8 at address `1.2.3.4` and a database hit. -/
theorem C8_handler_behavior_witness :
    inet_aton_chars ['1', '.', '2', '.', '3', '.', '4'] = some [1, 2, 3, 4] ∧
      web_lookup (fun _ => some ['x']) ['1', '.', '2', '.', '3', '.', '4'] = HResp.ok ['x'] :=
  ⟨by decide,
    ((C8_handler_behavior (fun _ => some ['x']) ['1', '.', '2', '.', '3', '.', '4']).2
        [1, 2, 3, 4] (by decide)).2 ['x'] (by decide)⟩

/-! ### Lemmas: base conversions and digit characters -/

theorem natToBE_foldl (base : ℕ) (hb : 0 < base) :
    ∀ (k n acc : ℕ), n < base ^ k →
      (natToBE base k n).foldl (fun a d => a * base + d) acc = acc * base ^ k + n := by
  intro k
  induction k with
  | zero =>
    intro n acc hn
    have hn0 : n = 0 := by
      rw [pow_zero] at hn
      omega
    subst hn0
    simp [natToBE]
  | succ k ih =>
    intro n acc hn
    have hdiv : n / base < base ^ k := by
      rw [Nat.div_lt_iff_lt_mul hb]
      calc n < base ^ (k + 1) := hn
        _ = base ^ k * base := by rw [pow_succ]
    show ((natToBE base k (n / base)) ++ [n % base]).foldl (fun a d => a * base + d) acc = _
    rw [List.foldl_append, ih (n / base) acc hdiv]
    show (acc * base ^ k + n / base) * base + n % base = acc * base ^ (k + 1) + n
    calc (acc * base ^ k + n / base) * base + n % base
        = acc * (base ^ k * base) + (n / base * base + n % base) := by ring
      _ = acc * base ^ (k + 1) + n := by rw [Nat.div_add_mod', pow_succ]

theorem beToNat_natToBE (base k n : ℕ) (hb : 0 < base) (hn : n < base ^ k) :
    beToNat base (natToBE base k n) = n := by
  show (natToBE base k n).foldl (fun a d => a * base + d) 0 = n
  rw [natToBE_foldl base hb k n 0 hn]
  simp

theorem natToBE_length (base k n : ℕ) : (natToBE base k n).length = k := by
  induction k generalizing n with
  | zero => rfl
  | succ k ih => simp [natToBE, ih]

theorem ip_packed_to_int_ip_int_to_packed (n : ℕ) (h : n < 2 ^ 128) :
    ip_packed_to_int (ip_int_to_packed n) = n := by
  have : n < 256 ^ 16 := by norm_num at h ⊢; omega
  exact beToNat_natToBE 256 16 n (by norm_num) this

theorem fromHextets_toHextets (n : ℕ) (h : n < 2 ^ 128) :
    fromHextets (toHextets n) = n := by
  have : n < 65536 ^ 8 := by norm_num at h ⊢; omega
  exact beToNat_natToBE 65536 8 n (by norm_num) this

theorem toHextets_length (n : ℕ) : (toHextets n).length = 8 := natToBE_length 65536 8 n

theorem hexCharVal_hexDigitChar {d : ℕ} (hd : d < 16) :
    hexCharVal (hexDigitChar d) = d := by
  interval_cases d <;> decide

theorem toHexAux_all_hex : ∀ (f n : ℕ), ∀ c ∈ toHexAux f n, hexCharVal c < 16 := by
  intro f
  induction f with
  | zero =>
    intro n c hc
    simp only [toHexAux, List.mem_singleton] at hc
    subst hc
    rw [hexCharVal_hexDigitChar (Nat.mod_lt _ (by norm_num))]
    exact Nat.mod_lt _ (by norm_num)
  | succ f ih =>
    intro n c hc
    simp only [toHexAux] at hc
    by_cases h : n < 16
    · rw [if_pos h] at hc
      simp only [List.mem_singleton] at hc
      subst hc
      rw [hexCharVal_hexDigitChar h]
      exact h
    · rw [if_neg h] at hc
      rcases List.mem_append.mp hc with h1 | h1
      · exact ih _ c h1
      · simp only [List.mem_singleton] at h1
        subst h1
        rw [hexCharVal_hexDigitChar (Nat.mod_lt _ (by norm_num))]
        exact Nat.mod_lt _ (by norm_num)

theorem toHexAux_ne_nil (f n : ℕ) : toHexAux f n ≠ [] := by
  cases f with
  | zero => simp [toHexAux]
  | succ f =>
    simp only [toHexAux]
    by_cases h : n < 16
    · simp [h]
    · simp [h]

theorem ofHexF_toHexAux : ∀ (f n acc : ℕ), n ≤ f →
    (toHexAux f n).foldl (fun a c => a * 16 + hexCharVal c) acc =
      acc * 16 ^ (toHexAux f n).length + n := by
  intro f
  induction f with
  | zero =>
    intro n acc hn
    interval_cases n
    show acc * 16 + hexCharVal (hexDigitChar (0 % 16)) = acc * 16 ^ 1 + 0
    simp [show hexCharVal (hexDigitChar (0 % 16)) = 0 from by decide]
  | succ f ih =>
    intro n acc hn
    simp only [toHexAux]
    by_cases h : n < 16
    · rw [if_pos h]
      simp [hexCharVal_hexDigitChar h]
    · rw [if_neg h]
      rw [List.foldl_append]
      have hle : n / 16 ≤ f := by omega
      rw [ih (n / 16) acc hle]
      simp only [List.foldl_cons, List.foldl_nil, List.length_append, List.length_singleton]
      rw [hexCharVal_hexDigitChar (Nat.mod_lt _ (by norm_num))]
      calc (acc * 16 ^ (toHexAux f (n / 16)).length + n / 16) * 16 + n % 16
          = acc * (16 ^ (toHexAux f (n / 16)).length * 16) + (n / 16 * 16 + n % 16) := by ring
        _ = acc * 16 ^ ((toHexAux f (n / 16)).length + 1) + n := by
            rw [Nat.div_add_mod', pow_succ]

theorem ofHexGroup_toHex (n : ℕ) : ofHexGroup (toHex n) = some n := by
  unfold ofHexGroup toHex
  rw [if_pos]
  · unfold ofHexF
    rw [ofHexF_toHexAux n n 0 le_rfl]
    simp
  · refine ⟨toHexAux_ne_nil n n, ?_⟩
    rw [List.all_eq_true]
    intro c hc
    simpa using toHexAux_all_hex n n c hc

theorem colon_not_mem_toHex (n : ℕ) : ':' ∉ toHex n := by
  intro h
  have := toHexAux_all_hex n n ':' h
  simp [hexCharVal] at this

theorem toHex_ne_nil (n : ℕ) : toHex n ≠ [] := toHexAux_ne_nil n n

theorem decCharVal_decDigitChar {d : ℕ} (hd : d < 10) :
    decCharVal (decDigitChar d) = d := by
  interval_cases d <;> decide

theorem toDecAux_all_dec : ∀ (f n : ℕ), ∀ c ∈ toDecAux f n, decCharVal c < 10 := by
  intro f
  induction f with
  | zero =>
    intro n c hc
    simp only [toDecAux, List.mem_singleton] at hc
    subst hc
    rw [decCharVal_decDigitChar (Nat.mod_lt _ (by norm_num))]
    exact Nat.mod_lt _ (by norm_num)
  | succ f ih =>
    intro n c hc
    simp only [toDecAux] at hc
    by_cases h : n < 10
    · rw [if_pos h] at hc
      simp only [List.mem_singleton] at hc
      subst hc
      rw [decCharVal_decDigitChar h]
      exact h
    · rw [if_neg h] at hc
      rcases List.mem_append.mp hc with h1 | h1
      · exact ih _ c h1
      · simp only [List.mem_singleton] at h1
        subst h1
        rw [decCharVal_decDigitChar (Nat.mod_lt _ (by norm_num))]
        exact Nat.mod_lt _ (by norm_num)

theorem toDecAux_ne_nil (f n : ℕ) : toDecAux f n ≠ [] := by
  cases f with
  | zero => simp [toDecAux]
  | succ f =>
    simp only [toDecAux]
    by_cases h : n < 10
    · simp [h]
    · simp [h]

theorem ofDecF_toDecAux : ∀ (f n acc : ℕ), n ≤ f →
    (toDecAux f n).foldl (fun a c => a * 10 + decCharVal c) acc =
      acc * 10 ^ (toDecAux f n).length + n := by
  intro f
  induction f with
  | zero =>
    intro n acc hn
    interval_cases n
    show acc * 10 + decCharVal (decDigitChar (0 % 10)) = acc * 10 ^ 1 + 0
    simp [show decCharVal (decDigitChar (0 % 10)) = 0 from by decide]
  | succ f ih =>
    intro n acc hn
    simp only [toDecAux]
    by_cases h : n < 10
    · rw [if_pos h]
      simp [decCharVal_decDigitChar h]
    · rw [if_neg h]
      rw [List.foldl_append]
      have hle : n / 10 ≤ f := by omega
      rw [ih (n / 10) acc hle]
      simp only [List.foldl_cons, List.foldl_nil, List.length_append, List.length_singleton]
      rw [decCharVal_decDigitChar (Nat.mod_lt _ (by norm_num))]
      calc (acc * 10 ^ (toDecAux f (n / 10)).length + n / 10) * 10 + n % 10
          = acc * (10 ^ (toDecAux f (n / 10)).length * 10) + (n / 10 * 10 + n % 10) := by ring
        _ = acc * 10 ^ ((toDecAux f (n / 10)).length + 1) + n := by
            rw [Nat.div_add_mod', pow_succ]

theorem ofDecGroup_toDec (n : ℕ) : ofDecGroup (toDec n) = some n := by
  unfold ofDecGroup toDec
  rw [if_pos]
  · unfold ofDecF
    rw [ofDecF_toDecAux n n 0 le_rfl]
    simp
  · refine ⟨toDecAux_ne_nil n n, ?_⟩
    rw [List.all_eq_true]
    intro c hc
    simpa using toDecAux_all_dec n n c hc

theorem dot_not_mem_toDec (n : ℕ) : '.' ∉ toDec n := by
  intro h
  have := toDecAux_all_dec n n '.' h
  simp [decCharVal] at this

theorem colon_not_mem_toDec (n : ℕ) : ':' ∉ toDec n := by
  intro h
  have := toDecAux_all_dec n n ':' h
  simp [decCharVal] at this

/-! ### Lemmas: IPv4 round trip and zero-run detection -/

theorem ipv4_roundtrip (n : ℕ) (h : n < 2 ^ 32) :
    ipv4_chars_to_int (ipv4_int_to_chars n) = some n := by
  unfold ipv4_int_to_chars ipv4_chars_to_int
  rw [List.splitOn_intercalate _ '.'
    (by
      intro l hl
      simp only [List.mem_cons, List.not_mem_nil, or_false] at hl
      rcases hl with rfl | rfl | rfl | rfl <;> exact dot_not_mem_toDec _)
    (by simp)]
  simp only [ofDecGroup_toDec]
  rw [if_pos (by refine ⟨?_, ?_, ?_, ?_⟩ <;> omega)]
  congr 1
  omega

theorem mem_intercalate_dot (c : Char) (gs : List (List Char))
    (h : c ∈ List.intercalate ['.'] gs) : c = '.' ∨ ∃ g ∈ gs, c ∈ g := by
  induction gs with
  | nil => simp [List.intercalate] at h
  | cons g t ih =>
    cases t with
    | nil =>
      simp only [List.intercalate] at h
      simp at h
      exact Or.inr ⟨g, by simp, by simpa using h⟩
    | cons g' t' =>
      rw [show List.intercalate ['.'] (g :: g' :: t') =
          g ++ '.' :: List.intercalate ['.'] (g' :: t') from by
        simp [List.intercalate, List.intersperse]] at h
      rcases List.mem_append.mp h with h1 | h1
      · exact Or.inr ⟨g, by simp, h1⟩
      · rcases List.mem_cons.mp h1 with h2 | h2
        · exact Or.inl h2
        · rcases ih h2 with h3 | ⟨g0, hg0, hc⟩
          · exact Or.inl h3
          · exact Or.inr ⟨g0, by simp [hg0], hc⟩

theorem colon_not_mem_ipv4_chars (n : ℕ) : ':' ∉ ipv4_int_to_chars n := by
  intro h
  rcases mem_intercalate_dot ':' _ h with h1 | ⟨g, hg, hc⟩
  · cases h1
  · simp only [List.mem_cons, List.not_mem_nil, or_false] at hg
    rcases hg with rfl | rfl | rfl | rfl <;> exact colon_not_mem_toDec _ hc

theorem take_takeWhile {A : Type} (p : A → Bool) :
    ∀ l : List A, l.take (l.takeWhile p).length = l.takeWhile p := by
  intro l
  induction l with
  | nil => rfl
  | cons a t ih =>
    by_cases h : p a
    · rw [List.takeWhile_cons_of_pos h]
      simpa using ih
    · rw [List.takeWhile_cons_of_neg (by simp [h])]
      rfl

theorem takeWhile_append_not {A : Type} (p : A → Bool) :
    ∀ (xs : List A) (y : A) (rest : List A), (∀ x ∈ xs, p x = true) → p y = false →
      (xs ++ y :: rest).takeWhile p = xs := by
  intro xs
  induction xs with
  | nil =>
    intro y rest _ hy
    rw [List.nil_append, List.takeWhile_cons_of_neg (by simp [hy])]
  | cons a t ih =>
    intro y rest hall hy
    rw [List.cons_append, List.takeWhile_cons_of_pos (hall a (List.mem_cons_self a t))]
    exact congrArg (a :: ·) (ih y rest (fun x hx => hall x (List.mem_cons_of_mem _ hx)) hy)

theorem runLen_take (ws : List ℕ) (i : ℕ) :
    (ws.drop i).take (runLen ws i) = List.replicate (runLen ws i) 0 := by
  unfold runLen
  rw [take_takeWhile]
  rw [List.eq_replicate_iff]
  refine ⟨rfl, fun b hb => ?_⟩
  have := List.mem_takeWhile_imp hb
  simpa using this

theorem runLen_le (ws : List ℕ) (i : ℕ) (h : i ≤ ws.length) :
    i + runLen ws i ≤ ws.length := by
  have h1 : runLen ws i ≤ (ws.drop i).length := by
    unfold runLen
    calc ((ws.drop i).takeWhile (fun x => x == 0)).length
        = ((ws.drop i).take ((ws.drop i).takeWhile (fun x => x == 0)).length).length := by
          rw [take_takeWhile]
      _ ≤ (ws.drop i).length := by
          rw [List.length_take]
          omega
  rw [List.length_drop] at h1
  omega

theorem foldl_best_spec (ws : List ℕ) :
    ∀ (is1 : List ℕ) (acc : ℕ × ℕ),
      (acc = (0, 0) ∨ (acc.1 < ws.length ∧ acc.2 = runLen ws acc.1)) →
      (∀ i ∈ is1, i < ws.length) →
      (is1.foldl (fun acc i => if runLen ws i > acc.2 then (i, runLen ws i) else acc) acc = (0, 0) ∨
        ((is1.foldl (fun acc i => if runLen ws i > acc.2 then (i, runLen ws i) else acc) acc).1 <
            ws.length ∧
          (is1.foldl (fun acc i => if runLen ws i > acc.2 then (i, runLen ws i) else acc) acc).2 =
            runLen ws
              (is1.foldl (fun acc i => if runLen ws i > acc.2 then (i, runLen ws i) else acc)
                  acc).1)) := by
  intro is1
  induction is1 with
  | nil => intro acc hacc _; exact hacc
  | cons j t ih =>
    intro acc hacc hmem
    simp only [List.foldl_cons]
    apply ih
    · by_cases hj : runLen ws j > acc.2
      · rw [if_pos hj]
        exact Or.inr ⟨hmem j (List.mem_cons_self _ _), rfl⟩
      · rw [if_neg hj]
        exact hacc
    · exact fun i hi => hmem i (List.mem_cons_of_mem _ hi)

theorem bestRun_some (ws : List ℕ) {i l : ℕ} (h : bestRun ws = some (i, l)) :
    2 ≤ l ∧ l = runLen ws i ∧ i < ws.length := by
  unfold bestRun at h
  dsimp only at h
  set best := (List.range ws.length).foldl
    (fun acc i => if runLen ws i > acc.2 then (i, runLen ws i) else acc) (0, 0) with hbest
  by_cases h2 : 2 ≤ best.2
  · rw [if_pos h2] at h
    have hspec := foldl_best_spec ws (List.range ws.length) (0, 0) (Or.inl rfl)
      (fun i hi => List.mem_range.mp hi)
    rw [← hbest] at hspec
    rcases hspec with h0 | ⟨hlt, heq⟩
    · rw [h0] at h2; omega
    · have hbe : best = (i, l) := by injection h
      rw [hbe] at h2 heq hlt
      exact ⟨h2, heq, hlt⟩
  · rw [if_neg h2] at h
    cases h

/-! ### Lemmas: IPv6 printing and parsing round trip -/

theorem ws_decomp (ws : List ℕ) (i l : ℕ) (hrl : l = runLen ws i) :
    ws = ws.take i ++ List.replicate l 0 ++ ws.drop (i + l) := by
  subst hrl
  conv_lhs => rw [← List.take_append_drop i ws]
  rw [← runLen_take ws i, List.append_assoc]
  congr 1
  rw [← List.drop_drop]
  exact (List.take_append_drop _ _).symm

theorem mapO_toHex (ws : List ℕ) : mapO ofHexGroup (ws.map toHex) = some ws := by
  induction ws with
  | nil => rfl
  | cons w t ih => simp [mapO, ofHexGroup_toHex, ih]

theorem no_colon_map_toHex (l : List ℕ) : ∀ x ∈ l.map toHex, ':' ∉ x := by
  intro x hx
  rcases List.mem_map.mp hx with ⟨w, _, rfl⟩
  exact colon_not_mem_toHex w

theorem bang_isEmpty_of_ne {x : List Char} (h : x ≠ []) : (!x.isEmpty) = true := by
  cases x with
  | nil => exact absurd rfl h
  | cons a t => rfl

theorem map_toHex_all_bang (l : List ℕ) : ∀ x ∈ l.map toHex, (!x.isEmpty) = true := by
  intro x hx
  rcases List.mem_map.mp hx with ⟨w, _, rfl⟩
  exact bang_isEmpty_of_ne (toHex_ne_nil w)

theorem replicate_of_eq {A : Type} (k n : ℕ) (x : A) (h : k = n) :
    List.replicate k x = List.replicate n x := by rw [h]

theorem parse6_print6 (ws : List ℕ) (hlen : ws.length = 8) :
    parse6Groups ((ipv6_chars_of_hextets ws).splitOn ':') = some ws := by
  unfold ipv6_chars_of_hextets
  cases hbr : bestRun ws with
  | none =>
    rw [List.splitOn_intercalate _ ':' (no_colon_map_toHex ws)
      (by
        intro hc
        have := congrArg List.length hc
        simp [hlen] at this)]
    unfold parse6Groups
    rw [if_neg (by
      intro hc
      rcases List.any_eq_true.mp hc with ⟨x, hx, hxe⟩
      have hb := map_toHex_all_bang ws x hx
      rw [List.isEmpty_iff] at hxe
      subst hxe
      simp at hb)]
    rw [if_pos (by simp [hlen])]
    exact mapO_toHex ws
  | some il =>
    obtain ⟨i, l⟩ := il
    obtain ⟨h2l, hrl, hilt⟩ := bestRun_some ws hbr
    have hile : i + l ≤ 8 := by
      have := runLen_le ws i (by omega)
      omega
    have hBlen : ((ws.take i).map toHex).length = i := by
      simp [List.length_take]
      omega
    have hAlen : ((ws.drop (i + l)).map toHex).length = 8 - (i + l) := by
      simp [List.length_drop, hlen]
    have hdec := ws_decomp ws i l hrl
    dsimp only
    cases hBc : (ws.take i).map toHex with
    | nil =>
      have hi0 : i = 0 := by rw [hBc] at hBlen; simpa using hBlen.symm
      cases hAc : (ws.drop (i + l)).map toHex with
      | nil =>
        have hl8 : l = 8 := by
          rw [hAc] at hAlen
          simp at hAlen
          omega
        have hdrop : ws.drop (i + l) = [] := by
          apply List.drop_eq_nil_of_le
          omega
        rw [hdrop, List.append_nil] at hdec
        rw [hi0, hl8] at hdec
        simp only [List.take_zero, List.nil_append] at hdec
        rw [List.splitOn_intercalate _ ':'
          (by intro x hx; simp at hx; rcases hx with rfl | rfl | rfl <;> simp) (by simp)]
        unfold parse6Groups
        rw [if_pos (by decide)]
        dsimp only
        rw [show (([] : List Char) :: ([] : List Char) :: [([] : List Char)]).takeWhile
            (fun p => !p.isEmpty) = [] from by decide]
        rw [show ((([] : List Char) :: ([] : List Char) :: [([] : List Char)]).reverse.takeWhile
            (fun p => !p.isEmpty)).reverse = ([] : List (List Char)) from by decide]
        rw [if_pos ⟨by decide, by decide⟩]
        rw [show mapO ofHexGroup ([] : List (List Char)) = some ([] : List ℕ) from rfl]
        dsimp only
        rw [replicate_of_eq
          (8 - ([] : List (List Char)).length - ([] : List (List Char)).length) 8 (0 : ℕ)
          (by decide)]
        rw [List.nil_append, List.append_nil, ← hdec]
      | cons a A' =>
        have hmA : mapO ofHexGroup (a :: A') = some (ws.drop (i + l)) := by
          rw [← hAc]
          exact mapO_toHex _
        rw [hi0] at hdec
        simp only [List.take_zero, List.nil_append, Nat.zero_add] at hdec
        rw [List.splitOn_intercalate _ ':' (by
            intro x hx
            rcases List.mem_cons.mp hx with rfl | hx1
            · simp
            · rcases List.mem_cons.mp hx1 with rfl | hx2
              · simp
              · exact no_colon_map_toHex _ x (by rw [hAc]; exact hx2))
          (by simp)]
        unfold parse6Groups
        rw [if_pos (by simp)]
        dsimp only
        rw [show (([] : List Char) :: ([] : List Char) :: a :: A').takeWhile
            (fun p => !p.isEmpty) = [] from by
          rw [List.takeWhile_cons_of_neg (by simp)]]
        rw [show ((([] : List Char) :: ([] : List Char) :: a :: A').reverse.takeWhile
            (fun p => !p.isEmpty)).reverse = a :: A' from by
          rw [show (([] : List Char) :: ([] : List Char) :: a :: A').reverse =
            (a :: A').reverse ++ ([] : List Char) :: [([] : List Char)] from by simp]
          rw [takeWhile_append_not (fun p => !p.isEmpty) ((a :: A').reverse) ([] : List Char)
            [([] : List Char)]
            (fun x hx => map_toHex_all_bang _ x (by rw [hAc]; exact List.mem_reverse.mp hx))
            (by rfl)]
          exact List.reverse_reverse _]
        have hAl : (a :: A').length = 8 - (i + l) := by rw [← hAc, hAlen]
        rw [if_pos ⟨by
            rw [show ([] : List (List Char)).length = 0 from rfl, hAl]
            omega, by
            rw [replicate_of_eq
              ((([] : List Char) :: ([] : List Char) :: a :: A').length -
                ([] : List (List Char)).length - (a :: A').length) 2 ([] : List Char)
              (by simp)]
            rfl⟩]
        rw [show mapO ofHexGroup ([] : List (List Char)) = some ([] : List ℕ) from rfl, hmA]
        dsimp only
        rw [replicate_of_eq (8 - ([] : List (List Char)).length - (a :: A').length) l (0 : ℕ)
          (by rw [show ([] : List (List Char)).length = 0 from rfl, hAl]; omega)]
        rw [List.nil_append, hi0, Nat.zero_add]
        rw [← hdec]
    | cons b B' =>
      have hmB : mapO ofHexGroup (b :: B') = some (ws.take i) := by
        rw [← hBc]
        exact mapO_toHex _
      have hBl : (b :: B').length = i := by rw [← hBc, hBlen]
      cases hAc : (ws.drop (i + l)).map toHex with
      | nil =>
        have hl8 : i + l = 8 := by
          rw [hAc] at hAlen
          simp at hAlen
          omega
        have hdrop : ws.drop (i + l) = [] := by
          apply List.drop_eq_nil_of_le
          omega
        rw [hdrop, List.append_nil] at hdec
        rw [List.splitOn_intercalate _ ':' (by
            intro x hx
            rcases List.mem_append.mp hx with hx1 | hx1
            · exact no_colon_map_toHex _ x (by rw [hBc]; exact hx1)
            · simp at hx1
              rcases hx1 with rfl | rfl <;> simp)
          (by simp)]
        unfold parse6Groups
        rw [if_pos (by
          refine List.any_eq_true.mpr ⟨[], ?_, rfl⟩
          exact List.mem_append.mpr (Or.inr (by simp)))]
        dsimp only
        rw [show ((b :: B') ++ [([] : List Char), ([] : List Char)]).takeWhile
            (fun p => !p.isEmpty) = b :: B' from
          takeWhile_append_not (fun p => !p.isEmpty) (b :: B') ([] : List Char)
            [([] : List Char)]
            (fun x hx => map_toHex_all_bang _ x (by rw [hBc]; exact hx)) (by rfl)]
        rw [show (((b :: B') ++ [([] : List Char), ([] : List Char)]).reverse.takeWhile
            (fun p => !p.isEmpty)).reverse = ([] : List (List Char)) from by
          rw [show ((b :: B') ++ [([] : List Char), ([] : List Char)]).reverse =
            ([] : List Char) :: ([] : List Char) :: (b :: B').reverse from by simp]
          rw [List.takeWhile_cons_of_neg (by simp)]
          rfl]
        rw [if_pos ⟨by
            rw [show ([] : List (List Char)).length = 0 from rfl, hBl]
            omega, by
            rw [replicate_of_eq
              (((b :: B') ++ [([] : List Char), ([] : List Char)]).length - (b :: B').length -
                ([] : List (List Char)).length) 2 ([] : List Char) (by simp)]
            simp⟩]
        rw [hmB, show mapO ofHexGroup ([] : List (List Char)) = some ([] : List ℕ) from rfl]
        dsimp only
        rw [replicate_of_eq (8 - (b :: B').length - ([] : List (List Char)).length) l (0 : ℕ)
          (by rw [show ([] : List (List Char)).length = 0 from rfl, hBl]; omega)]
        rw [List.append_nil]
        rw [← hdec]
      | cons a A' =>
        have hmA : mapO ofHexGroup (a :: A') = some (ws.drop (i + l)) := by
          rw [← hAc]
          exact mapO_toHex _
        have hAl : (a :: A').length = 8 - (i + l) := by rw [← hAc, hAlen]
        rw [List.splitOn_intercalate _ ':' (by
            intro x hx
            rcases List.mem_append.mp hx with hx1 | hx1
            · rcases List.mem_append.mp hx1 with hx2 | hx2
              · exact no_colon_map_toHex _ x (by rw [hBc]; exact hx2)
              · simp at hx2
                subst hx2
                simp
            · exact no_colon_map_toHex _ x (by rw [hAc]; exact hx1))
          (by simp)]
        unfold parse6Groups
        rw [if_pos (by
          refine List.any_eq_true.mpr ⟨[], ?_, rfl⟩
          exact List.mem_append.mpr (Or.inl (List.mem_append.mpr (Or.inr (by simp)))))]
        dsimp only
        rw [show ((b :: B') ++ [([] : List Char)] ++ a :: A').takeWhile
            (fun p => !p.isEmpty) = b :: B' from by
          rw [List.append_assoc]
          exact takeWhile_append_not (fun p => !p.isEmpty) (b :: B') ([] : List Char) (a :: A')
            (fun x hx => map_toHex_all_bang _ x (by rw [hBc]; exact hx)) (by rfl)]
        rw [show (((b :: B') ++ [([] : List Char)] ++ a :: A').reverse.takeWhile
            (fun p => !p.isEmpty)).reverse = a :: A' from by
          rw [show ((b :: B') ++ [([] : List Char)] ++ a :: A').reverse =
            (a :: A').reverse ++ ([] : List Char) :: (b :: B').reverse from by simp]
          rw [takeWhile_append_not (fun p => !p.isEmpty) ((a :: A').reverse) ([] : List Char)
            ((b :: B').reverse)
            (fun x hx => map_toHex_all_bang _ x (by rw [hAc]; exact List.mem_reverse.mp hx))
            (by rfl)]
          exact List.reverse_reverse _]
        rw [if_pos ⟨by
            rw [hBl, hAl]
            omega, by
            rw [replicate_of_eq
              (((b :: B') ++ [([] : List Char)] ++ a :: A').length - (b :: B').length -
                (a :: A').length) 1 ([] : List Char) (by simp)]
            rfl⟩]
        rw [hmB, hmA]
        dsimp only
        rw [replicate_of_eq (8 - (b :: B').length - (a :: A').length) l (0 : ℕ)
          (by rw [hBl, hAl]; omega)]
        rw [← hdec]

theorem colon_mem_intercalate (parts : List (List Char)) (h : 2 ≤ parts.length) :
    ':' ∈ List.intercalate [':'] parts := by
  match parts, h with
  | p :: q :: rest, _ =>
    rw [show List.intercalate [':'] (p :: q :: rest) =
      p ++ ':' :: List.intercalate [':'] (q :: rest) from by
        simp [List.intercalate, List.intersperse]]
    simp

theorem colon_mem_ipv6_chars (ws : List ℕ) (hlen : ws.length = 8) :
    ':' ∈ ipv6_chars_of_hextets ws := by
  unfold ipv6_chars_of_hextets
  cases hbr : bestRun ws with
  | none =>
    apply colon_mem_intercalate
    simp [hlen]
  | some il =>
    obtain ⟨i, l⟩ := il
    dsimp only
    cases hBc : (ws.take i).map toHex with
    | nil =>
      cases hAc : (ws.drop (i + l)).map toHex with
      | nil => exact colon_mem_intercalate _ (by simp)
      | cons a A' => exact colon_mem_intercalate _ (by simp)
    | cons b B' =>
      cases hAc : (ws.drop (i + l)).map toHex with
      | nil => exact colon_mem_intercalate _ (by simp)
      | cons a A' => exact colon_mem_intercalate _ (by simp; omega)

theorem ip_str_to_int_print (a : ℕ) (h : a < 2 ^ 128) :
    ip_str_to_int (ip_int_to_str a) = some a := by
  unfold ip_int_to_str ip_str_to_int
  by_cases hv4 : a / 2 ^ 32 = 0xffff
  · rw [if_pos hv4, if_neg (colon_not_mem_ipv4_chars _)]
    rw [ipv4_roundtrip _ (Nat.mod_lt _ (by norm_num))]
    simp only [Option.map_some']
    congr 1
    omega
  · rw [if_neg hv4, if_pos (colon_mem_ipv6_chars _ (toHextets_length a))]
    unfold ipv6_chars_to_int
    rw [parse6_print6 _ (toHextets_length a)]
    simp only [Option.map_some']
    rw [fromHextets_toHextets a h]

/-- C6: for every address `a` in the combined 128-bit space, converting
the canonical string form back to the packed 16-byte big-endian form
equals packing the integer form, and converting the packed form to a
string yields the canonical string again (IPv4 addresses travelling via
the `::ffff:0:0/96` mapping). -/
theorem C6_address_roundtrip (a : ℕ) (h : a < 2 ^ 128) :
    ip_str_to_packed (ip_int_to_str a) = some (ip_int_to_packed a) ∧
      ip_packed_to_str (ip_int_to_packed a) = ip_int_to_str a := by
  constructor
  · unfold ip_str_to_packed
    rw [ip_str_to_int_print a h]
    rfl
  · unfold ip_packed_to_str
    rw [ip_packed_to_int_ip_int_to_packed a h]

/-- Witness for C6 at the IPv6 address `2001:db8::ff00:42:8329` and the
v4-mapped address `::ffff:73.150.2.210`. -/
theorem C6_address_roundtrip_witness :
    (0x20010db8000000000000ff0000428329 < 2 ^ 128 ∧
      (ip_str_to_packed (ip_int_to_str 0x20010db8000000000000ff0000428329) =
          some (ip_int_to_packed 0x20010db8000000000000ff0000428329) ∧
        ip_packed_to_str (ip_int_to_packed 0x20010db8000000000000ff0000428329) =
          ip_int_to_str 0x20010db8000000000000ff0000428329)) ∧
      (0xffff499602d2 < 2 ^ 128 ∧
        (ip_str_to_packed (ip_int_to_str 0xffff499602d2) =
            some (ip_int_to_packed 0xffff499602d2) ∧
          ip_packed_to_str (ip_int_to_packed 0xffff499602d2) =
            ip_int_to_str 0xffff499602d2)) :=
  ⟨⟨by norm_num, C6_address_roundtrip 0x20010db8000000000000ff0000428329 (by norm_num)⟩,
    ⟨by norm_num, C6_address_roundtrip 0xffff499602d2 (by norm_num)⟩⟩

/-! ### Lemmas: the k-way event merge (`heapq.merge`) -/

theorem evKeyLE_pos_le {α : Type} {a b : Ev α} (h : evKeyLE a b = true) : a.pos ≤ b.pos := by
  simp only [evKeyLE, decide_eq_true_eq] at h
  omega

theorem evKeyLE_total {α : Type} {a b : Ev α} (h : evKeyLE a b = false) :
    evKeyLE b a = true := by
  simp only [evKeyLE, decide_eq_false_iff_not, not_or, not_and, not_lt] at h
  simp only [evKeyLE, decide_eq_true_eq]
  omega

theorem popMin_none {α : Type} :
    ∀ ls : List (List (Ev α)), popMin ls = none → ∀ s ∈ ls, s = [] := by
  intro ls
  induction ls with
  | nil => intro _ s hs; simp at hs
  | cons s₀ rest ih =>
    intro h s hs
    cases s₀ with
    | nil =>
      simp only [popMin] at h
      cases hr : popMin rest with
      | none =>
        rcases List.mem_cons.mp hs with rfl | hs1
        · rfl
        · exact ih hr s hs1
      | some er =>
        rw [hr] at h
        dsimp only at h
        cases h
    | cons x xs =>
      simp only [popMin] at h
      cases hr : popMin rest with
      | none =>
        rw [hr] at h
        dsimp only at h
        cases h
      | some er =>
        obtain ⟨y, rest'⟩ := er
        rw [hr] at h
        dsimp only at h
        by_cases hxy : evKeyLE x y = true
        · rw [if_pos hxy] at h; cases h
        · rw [if_neg hxy] at h; cases h

theorem popMin_shape {α : Type} :
    ∀ (ls : List (List (Ev α))) (e : Ev α) (ls' : List (List (Ev α))),
      popMin ls = some (e, ls') →
      ∃ l₁ s l₂, ls = l₁ ++ (e :: s) :: l₂ ∧ ls' = l₁ ++ s :: l₂ := by
  intro ls
  induction ls with
  | nil => intro e ls' h; simp [popMin] at h
  | cons s₀ rest ih =>
    intro e ls' h
    cases s₀ with
    | nil =>
      simp only [popMin] at h
      cases hr : popMin rest with
      | none =>
        rw [hr] at h
        dsimp only at h
        cases h
      | some er =>
        obtain ⟨e₁, rest₁⟩ := er
        rw [hr] at h
        dsimp only at h
        obtain ⟨l₁, s, l₂, h1, h2⟩ := ih e₁ rest₁ hr
        cases h
        refine ⟨[] :: l₁, s, l₂, ?_, ?_⟩
        · rw [h1]; rfl
        · rw [h2]; rfl
    | cons x xs =>
      simp only [popMin] at h
      cases hr : popMin rest with
      | none =>
        rw [hr] at h
        dsimp only at h
        cases h
        exact ⟨[], xs, rest, rfl, rfl⟩
      | some er =>
        obtain ⟨y, rest'⟩ := er
        rw [hr] at h
        dsimp only at h
        by_cases hxy : evKeyLE x y = true
        · rw [if_pos hxy] at h
          cases h
          exact ⟨[], xs, rest, rfl, rfl⟩
        · rw [if_neg hxy] at h
          obtain ⟨l₁, s, l₂, h1, h2⟩ := ih y rest' hr
          cases h
          refine ⟨(x :: xs) :: l₁, s, l₂, ?_, ?_⟩
          · rw [h1]; rfl
          · rw [h2]; rfl

theorem popMin_totalLen {α : Type} {ls : List (List (Ev α))} {e : Ev α}
    {ls' : List (List (Ev α))} (h : popMin ls = some (e, ls')) :
    totalLen ls = totalLen ls' + 1 := by
  obtain ⟨l₁, s, l₂, h1, h2⟩ := popMin_shape ls e ls' h
  subst h1
  subst h2
  simp [totalLen, List.sum_append]
  omega

theorem popMin_perm {α : Type} {ls : List (List (Ev α))} {e : Ev α}
    {ls' : List (List (Ev α))} (h : popMin ls = some (e, ls')) :
    ls.flatten.Perm (e :: ls'.flatten) := by
  obtain ⟨l₁, s, l₂, h1, h2⟩ := popMin_shape ls e ls' h
  subst h1
  subst h2
  rw [List.flatten_append, List.flatten_append, List.flatten_cons, List.flatten_cons]
  have : l₁.flatten ++ ((e :: s) ++ l₂.flatten) = l₁.flatten ++ e :: (s ++ l₂.flatten) := by
    simp
  rw [this]
  refine List.perm_middle.trans ?_
  simp [List.flatten_append]

theorem popMin_pos_le {α : Type} :
    ∀ (ls : List (List (Ev α))) (e : Ev α) (ls' : List (List (Ev α))),
      popMin ls = some (e, ls') →
      (∀ s ∈ ls, List.Pairwise (fun x y : Ev α => x.pos ≤ y.pos) s) →
      ∀ s ∈ ls, ∀ x ∈ s, e.pos ≤ x.pos := by
  intro ls
  induction ls with
  | nil => intro e ls' h; simp [popMin] at h
  | cons s₀ rest ih =>
    intro e ls' h hsort s hs x hx
    cases s₀ with
    | nil =>
      simp only [popMin] at h
      cases hr : popMin rest with
      | none =>
        rw [hr] at h
        dsimp only at h
        cases h
      | some er =>
        obtain ⟨e₁, rest₁⟩ := er
        rw [hr] at h
        dsimp only at h
        have hrec := ih e₁ rest₁ hr (fun s' hs' => hsort s' (List.mem_cons_of_mem _ hs'))
        cases h
        rcases List.mem_cons.mp hs with rfl | hs1
        · simp at hx
        · exact hrec s hs1 x hx
    | cons z zs =>
      simp only [popMin] at h
      have hzzs : ∀ y ∈ z :: zs, z.pos ≤ y.pos := by
        intro y hy
        rcases List.mem_cons.mp hy with rfl | hy1
        · exact le_refl _
        · exact List.rel_of_pairwise_cons (hsort _ (List.mem_cons_self _ _)) hy1
      cases hr : popMin rest with
      | none =>
        rw [hr] at h
        dsimp only at h
        cases h
        rcases List.mem_cons.mp hs with rfl | hs1
        · exact hzzs x hx
        · have := popMin_none rest hr s hs1
          subst this
          simp at hx
      | some er =>
        obtain ⟨y, rest'⟩ := er
        rw [hr] at h
        dsimp only at h
        have hrest := ih y rest' hr (fun s' hs' => hsort s' (List.mem_cons_of_mem _ hs'))
        by_cases hxy : evKeyLE z y = true
        · rw [if_pos hxy] at h
          cases h
          rcases List.mem_cons.mp hs with rfl | hs1
          · exact hzzs x hx
          · exact le_trans (evKeyLE_pos_le hxy) (hrest s hs1 x hx)
        · rw [if_neg hxy] at h
          cases h
          rcases List.mem_cons.mp hs with rfl | hs1
          · exact le_trans (evKeyLE_pos_le (evKeyLE_total (Bool.eq_false_iff.mpr hxy))) (hzzs x hx)
          · exact hrest s hs1 x hx

theorem mergeEvF_perm {α : Type} :
    ∀ (f : ℕ) (ls : List (List (Ev α))), totalLen ls ≤ f →
      (mergeEvF f ls).Perm ls.flatten := by
  intro f
  induction f with
  | zero =>
    intro ls h
    have : ls.flatten.length = 0 := by
      rw [List.length_flatten]
      unfold totalLen at h
      omega
    rw [List.length_eq_zero] at this
    rw [this]
    exact List.Perm.refl _
  | succ f ih =>
    intro ls h
    show (match popMin ls with
      | none => []
      | some (e, ls') => e :: mergeEvF f ls').Perm ls.flatten
    cases hp : popMin ls with
    | none =>
      have : ls.flatten = [] := by
        rw [List.eq_nil_iff_forall_not_mem]
        intro x hx
        rcases List.mem_flatten.mp hx with ⟨s, hs, hxs⟩
        rw [popMin_none ls hp s hs] at hxs
        simp at hxs
      rw [this]
    | some els =>
      obtain ⟨e, ls'⟩ := els
      have hlen := popMin_totalLen hp
      have hperm := popMin_perm hp
      exact ((ih ls' (by omega)).cons e).trans hperm.symm

theorem mergeEvF_sublist {α : Type} :
    ∀ (f : ℕ) (ls : List (List (Ev α))), totalLen ls ≤ f →
      ∀ s ∈ ls, List.Sublist s (mergeEvF f ls) := by
  intro f
  induction f with
  | zero =>
    intro ls h s hs
    have hlen : s.length = 0 := by
      have h1 : s.length ∈ ls.map List.length := List.mem_map.mpr ⟨s, hs, rfl⟩
      have h2 := List.le_sum_of_mem h1
      unfold totalLen at h
      omega
    rw [List.length_eq_zero] at hlen
    rw [hlen]
    exact List.nil_sublist _
  | succ f ih =>
    intro ls h s hs
    show List.Sublist s (match popMin ls with
      | none => []
      | some (e, ls') => e :: mergeEvF f ls')
    cases hp : popMin ls with
    | none =>
      rw [popMin_none ls hp s hs]
    | some els =>
      obtain ⟨e, ls'⟩ := els
      have hlen := popMin_totalLen hp
      obtain ⟨l₁, sp, l₂, h1, h2⟩ := popMin_shape ls e ls' hp
      subst h1
      subst h2
      rcases List.mem_append.mp hs with hs1 | hs1
      · exact (ih _ (by omega) s (List.mem_append.mpr (Or.inl hs1))).cons e
      · rcases List.mem_cons.mp hs1 with rfl | hs2
        · exact (ih _ (by omega) sp
            (List.mem_append.mpr (Or.inr (List.mem_cons_self _ _)))).cons₂ e
        · exact (ih _ (by omega) s
            (List.mem_append.mpr (Or.inr (List.mem_cons_of_mem _ hs2)))).cons e

theorem mergeEvF_pairwise {α : Type} :
    ∀ (f : ℕ) (ls : List (List (Ev α))), totalLen ls ≤ f →
      (∀ s ∈ ls, List.Pairwise (fun x y : Ev α => x.pos ≤ y.pos) s) →
      List.Pairwise (fun x y : Ev α => x.pos ≤ y.pos) (mergeEvF f ls) := by
  intro f
  induction f with
  | zero => intro ls _ _; exact List.Pairwise.nil
  | succ f ih =>
    intro ls h hsort
    show List.Pairwise _ (match popMin ls with
      | none => []
      | some (e, ls') => e :: mergeEvF f ls')
    cases hp : popMin ls with
    | none => exact List.Pairwise.nil
    | some els =>
      obtain ⟨e, ls'⟩ := els
      have hlen := popMin_totalLen hp
      have hle := popMin_pos_le ls e ls' hp hsort
      obtain ⟨l₁, sp, l₂, h1, h2⟩ := popMin_shape ls e ls' hp
      have hsort' : ∀ s ∈ ls', List.Pairwise (fun x y : Ev α => x.pos ≤ y.pos) s := by
        intro s hs
        rw [h2] at hs
        rcases List.mem_append.mp hs with hs1 | hs1
        · refine hsort s ?_
          rw [h1]
          exact List.mem_append.mpr (Or.inl hs1)
        · rcases List.mem_cons.mp hs1 with rfl | hs2
          · have hme : (e :: s) ∈ ls := by
              rw [h1]
              exact List.mem_append.mpr (Or.inr (List.mem_cons_self _ _))
            exact (List.pairwise_cons.mp (hsort _ hme)).2
          · refine hsort s ?_
            rw [h1]
            exact List.mem_append.mpr (Or.inr (List.mem_cons_of_mem _ hs2))
      refine List.pairwise_cons.mpr ⟨?_, ih ls' (by omega) hsort'⟩
      intro x hx
      have hxmem : x ∈ ls'.flatten := (mergeEvF_perm f ls' (by omega)).mem_iff.mp hx
      rcases List.mem_flatten.mp hxmem with ⟨s, hs, hxs⟩
      rw [h2] at hs
      rcases List.mem_append.mp hs with hs1 | hs1
      · refine hle s ?_ x hxs
        rw [h1]
        exact List.mem_append.mpr (Or.inl hs1)
      · rcases List.mem_cons.mp hs1 with rfl | hs2
        · refine hle (e :: s) ?_ x (List.mem_cons_of_mem _ hxs)
          rw [h1]
          exact List.mem_append.mpr (Or.inr (List.mem_cons_self _ _))
        · refine hle s ?_ x hxs
          rw [h1]
          exact List.mem_append.mpr (Or.inr (List.mem_cons_of_mem _ hs2))

/-! ### Lemmas: the active map and per-input-id event application -/

theorem dlookup_append (d₁ d₂ : Dict K V) (k : K) :
    dlookup (d₁ ++ d₂) k =
      match dlookup d₁ k with
      | some v => some v
      | none => dlookup d₂ k := by
  induction d₁ with
  | nil => simp [dlookup]
  | cons kv t ih =>
    obtain ⟨k1, v1⟩ := kv
    by_cases h : k1 = k
    · simp [dlookup, h]
    · simp only [List.cons_append, dlookup, if_neg h]
      exact ih

theorem dlookup_filter_ne {α : Type} (m : Dict ℕ α) (i j : ℕ) :
    dlookup (m.filter (fun kv => decide (kv.1 ≠ i))) j =
      if j = i then none else dlookup m j := by
  induction m with
  | nil => simp [dlookup]
  | cons kv t ih =>
    obtain ⟨k1, v1⟩ := kv
    by_cases h1 : k1 = i
    · subst h1
      rw [List.filter_cons_of_neg (by simp)]
      rw [ih]
      by_cases h2 : j = k1
      · subst h2; simp
      · rw [if_neg h2, if_neg h2]
        simp only [dlookup, if_neg (fun hh : k1 = j => h2 hh.symm)]
    · rw [List.filter_cons_of_pos (by simpa using h1)]
      simp only [dlookup]
      by_cases h2 : k1 = j
      · subst h2
        rw [if_pos rfl, if_neg (fun hh : k1 = i => h1 hh), if_pos rfl]
      · rw [if_neg h2, ih]
        by_cases h3 : j = i
        · rw [if_pos h3, if_pos h3]
        · rw [if_neg h3, if_neg h3, if_neg h2]

theorem applyEvent_isSome {α : Type} (m : Dict ℕ α) (ev : Ev α) :
    (applyEvent m ev).isSome = (entryStep ev (dlookup m ev.id)).isSome := by
  unfold applyEvent entryStep
  by_cases h : ev.etype = 0
  · rw [if_pos h, if_pos h]
    cases dlookup m ev.id <;> cases ev.data <;> rfl
  · rw [if_neg h, if_neg h]
    cases dlookup m ev.id <;> rfl

theorem applyEvent_lookup_eq {α : Type} {m m₁ : Dict ℕ α} {ev : Ev α}
    (h : applyEvent m ev = some m₁) :
    entryStep ev (dlookup m ev.id) = some (dlookup m₁ ev.id) ∧
      ∀ j, ¬ j = ev.id → dlookup m₁ j = dlookup m j := by
  unfold applyEvent at h
  by_cases he : ev.etype = 0
  · rw [if_pos he] at h
    cases hcur : dlookup m ev.id with
    | some v => rw [hcur] at h; cases ev.data <;> cases h
    | none =>
      rw [hcur] at h
      cases hd : ev.data with
      | none => rw [hd] at h; cases h
      | some d =>
        rw [hd] at h
        cases h
        constructor
        · simp only [entryStep, if_pos he, hcur, hd]
          rw [dlookup_append, hcur]
          simp [dlookup]
        · intro j hj
          rw [dlookup_append]
          cases hmj : dlookup m j with
          | some v => rfl
          | none =>
            show dlookup [(ev.id, d)] j = none
            unfold dlookup
            rw [if_neg (fun hh : ev.id = j => hj hh.symm)]
            rfl
  · rw [if_neg he] at h
    cases hcur : dlookup m ev.id with
    | none => rw [hcur] at h; cases h
    | some v =>
      rw [hcur] at h
      cases h
      constructor
      · simp only [entryStep, if_neg he, hcur]
        rw [dlookup_filter_ne]
        simp
      · intro j hj
        rw [dlookup_filter_ne, if_neg hj]

theorem applyEvent_nodup {α : Type} {m m₁ : Dict ℕ α} {ev : Ev α}
    (hnd : NodupKeys m) (h : applyEvent m ev = some m₁) : NodupKeys m₁ := by
  unfold applyEvent at h
  by_cases he : ev.etype = 0
  · rw [if_pos he] at h
    cases hcur : dlookup m ev.id with
    | some v => rw [hcur] at h; cases ev.data <;> cases h
    | none =>
      rw [hcur] at h
      cases hd : ev.data with
      | none => rw [hd] at h; cases h
      | some d =>
        rw [hd] at h
        cases h
        unfold NodupKeys
        rw [List.map_append, List.nodup_append]
        refine ⟨hnd, by simp, ?_⟩
        intro a ha hb
        simp only [List.map_cons, List.map_nil, List.mem_singleton] at hb
        subst hb
        exact absurd ((dlookup_eq_none_iff m ev.id).mp hcur) (fun hno => hno ha)
  · rw [if_neg he] at h
    cases hcur : dlookup m ev.id with
    | none => rw [hcur] at h; cases h
    | some v =>
      rw [hcur] at h
      cases h
      exact List.Nodup.sublist ((List.filter_sublist m).map Prod.fst) hnd

theorem applyEvents_lookup {α : Type} :
    ∀ (evs : List (Ev α)) (m m' : Dict ℕ α), applyEvents evs m = some m' →
      ∀ i, entryApply (evs.filter (fun ev => ev.id == i)) (dlookup m i) =
        some (dlookup m' i) := by
  intro evs
  induction evs with
  | nil =>
    intro m m' h i
    cases h
    rfl
  | cons ev t ih =>
    intro m m' h i
    unfold applyEvents at h
    cases ha : applyEvent m ev with
    | none => rw [ha] at h; cases h
    | some m₁ =>
      rw [ha] at h
      obtain ⟨hstep, hother⟩ := applyEvent_lookup_eq ha
      by_cases hid : ev.id = i
      · subst hid
        rw [List.filter_cons_of_pos (by simp)]
        unfold entryApply
        rw [hstep]
        exact ih m₁ m' h ev.id
      · rw [List.filter_cons_of_neg (by simpa using hid)]
        rw [show dlookup m i = dlookup m₁ i from
          (hother i (fun hh => hid hh.symm)).symm]
        exact ih m₁ m' h i

theorem applyEvents_isSome {α : Type} :
    ∀ (evs : List (Ev α)) (m : Dict ℕ α),
      (∀ i, (entryApply (evs.filter (fun ev => ev.id == i)) (dlookup m i)).isSome) →
      (applyEvents evs m).isSome := by
  intro evs
  induction evs with
  | nil => intro m _; rfl
  | cons ev t ih =>
    intro m hall
    unfold applyEvents
    have hself := hall ev.id
    rw [List.filter_cons_of_pos (by simp)] at hself
    unfold entryApply at hself
    cases hstep : entryStep ev (dlookup m ev.id) with
    | none => rw [hstep] at hself; cases hself
    | some cur' =>
      rw [hstep] at hself
      have hsome : (applyEvent m ev).isSome := by
        rw [applyEvent_isSome, hstep]
        rfl
      obtain ⟨m₁, hm₁⟩ := Option.isSome_iff_exists.mp hsome
      rw [hm₁]
      obtain ⟨hstep₁, hother⟩ := applyEvent_lookup_eq hm₁
      refine ih m₁ ?_
      intro i
      by_cases hid : ev.id = i
      · subst hid
        rw [hstep] at hstep₁
        cases hstep₁
        exact hself
      · have h1 := hall i
        rw [List.filter_cons_of_neg (by simpa using hid)] at h1
        rw [hother i (fun hh => hid hh.symm)]
        exact h1

theorem applyEvents_nodup {α : Type} :
    ∀ (evs : List (Ev α)) (m m' : Dict ℕ α), NodupKeys m → applyEvents evs m = some m' →
      NodupKeys m' := by
  intro evs
  induction evs with
  | nil =>
    intro m m' hnd h
    cases h
    exact hnd
  | cons ev t ih =>
    intro m m' hnd h
    unfold applyEvents at h
    cases ha : applyEvent m ev with
    | none => rw [ha] at h; cases h
    | some m₁ =>
      rw [ha] at h
      exact ih m₁ m' (applyEvent_nodup hnd ha) h

theorem values_lookup {α : Type} (m : Dict ℕ α) (hnd : NodupKeys m) (v : α) :
    v ∈ m.map Prod.snd ↔ ∃ i, dlookup m i = some v := by
  constructor
  · intro hv
    rcases List.mem_map.mp hv with ⟨⟨k1, v1⟩, hm, hv1⟩
    cases hv1
    exact ⟨k1, dlookup_of_mem_nodup hm hnd⟩
  · rintro ⟨i, hi⟩
    exact List.mem_map.mpr ⟨(i, v), dlookup_mem hi, rfl⟩

theorem eq_nil_of_lookup_none {α : Type} (m : Dict ℕ α) (h : ∀ i, dlookup m i = none) :
    m = [] := by
  cases m with
  | nil => rfl
  | cons kv t =>
    have := h kv.1
    simp [dlookup] at this

/-! ### Lemmas: one input stream's events and active range -/

theorem WFranges_tail {α : Type} {r : ℕ × ℕ × α} {rest : List (ℕ × ℕ × α)}
    (h : WFranges (r :: rest)) : WFranges rest :=
  ⟨fun r' hr' => h.1 r' (List.mem_cons_of_mem _ hr'), (List.chain'_cons'.mp h.2).2⟩

theorem wf_head_lt {α : Type} :
    ∀ {b e : ℕ} {d : α} {rest : List (ℕ × ℕ × α)}, WFranges ((b, e, d) :: rest) →
      ∀ r' ∈ rest, e < r'.1 := by
  intro b e d rest
  induction rest generalizing b e d with
  | nil => intro _ r' hr'; simp at hr'
  | cons r₁ rest' ih =>
    intro h r' hr'
    obtain ⟨b₁, e₁, d₁⟩ := r₁
    have h₁ : e < b₁ := (List.chain'_cons.mp h.2).1
    rcases List.mem_cons.mp hr' with rfl | hr''
    · exact h₁
    · have hb₁e₁ : b₁ ≤ e₁ := h.1 (b₁, e₁, d₁) (by simp)
      have := ih (WFranges_tail h) r' hr''
      omega

theorem wf_pairwise {α : Type} :
    ∀ {rs : List (ℕ × ℕ × α)}, WFranges rs →
      List.Pairwise (fun r r' : ℕ × ℕ × α => r.2.1 < r'.1) rs := by
  intro rs
  induction rs with
  | nil => intro _; exact List.Pairwise.nil
  | cons r rest ih =>
    intro h
    obtain ⟨b, e, d⟩ := r
    exact List.pairwise_cons.mpr ⟨wf_head_lt h, ih (WFranges_tail h)⟩

theorem cover_unique {α : Type} {rs : List (ℕ × ℕ × α)} (hwf : WFranges rs)
    {r r' : ℕ × ℕ × α} (hr : r ∈ rs) (hr' : r' ∈ rs) (x : ℕ)
    (hc : r.1 ≤ x ∧ x ≤ r.2.1) (hc' : r'.1 ≤ x ∧ x ≤ r'.2.1) : r = r' := by
  by_contra hne
  have hp : List.Pairwise
      (fun a b : ℕ × ℕ × α => a.2.1 < b.1 ∨ b.2.1 < a.1) rs :=
    List.Pairwise.imp (fun h => Or.inl h) (wf_pairwise hwf)
  have hsym : Symmetric (fun a b : ℕ × ℕ × α => a.2.1 < b.1 ∨ b.2.1 < a.1) := by
    intro a b hab
    rcases hab with h | h
    · exact Or.inr h
    · exact Or.inl h
  have := List.Pairwise.forall hsym hp hr hr' hne
  rcases this with h | h <;> omega

theorem mem_evPositions_of_mem {α : Type} :
    ∀ (rs : List (ℕ × ℕ × α)) (i : ℕ), ∀ ev ∈ genEventsP i rs, ev.pos ∈ evPositions rs := by
  intro rs i
  induction rs with
  | nil => intro ev hev; simp [genEventsP] at hev
  | cons r rest ih =>
    intro ev hev
    obtain ⟨b, e, d⟩ := r
    rcases List.mem_cons.mp hev with rfl | hev1
    · simp [evPositions]
    · rcases List.mem_cons.mp hev1 with rfl | hev2
      · simp [evPositions]
      · simp only [evPositions, List.mem_cons]
        exact Or.inr (Or.inr (ih ev hev2))

theorem mem_events_of_evPositions {α : Type} :
    ∀ (rs : List (ℕ × ℕ × α)) (i : ℕ) (t : ℕ), t ∈ evPositions rs →
      ∃ ev ∈ genEventsP i rs, ev.pos = t := by
  intro rs i
  induction rs with
  | nil => intro t ht; simp [evPositions] at ht
  | cons r rest ih =>
    intro t ht
    obtain ⟨b, e, d⟩ := r
    simp only [evPositions, List.mem_cons] at ht
    rcases ht with rfl | rfl | ht2
    · exact ⟨⟨t, 0, i, some d⟩, by simp [genEventsP], rfl⟩
    · exact ⟨⟨e + 1, 1, i, none⟩, by simp [genEventsP], rfl⟩
    · obtain ⟨ev, hev, hpos⟩ := ih t ht2
      exact ⟨ev, by simp [genEventsP, hev], hpos⟩

theorem begin_event_mem {α : Type} :
    ∀ (rs : List (ℕ × ℕ × α)) (i b e : ℕ) (d : α), (b, e, d) ∈ rs →
      (⟨b, 0, i, some d⟩ : Ev α) ∈ genEventsP i rs ∧
        (⟨e + 1, 1, i, none⟩ : Ev α) ∈ genEventsP i rs := by
  intro rs i b e d
  induction rs with
  | nil => intro h; simp at h
  | cons r rest ih =>
    intro h
    obtain ⟨b₁, e₁, d₁⟩ := r
    rcases List.mem_cons.mp h with heq | h1
    · cases heq
      constructor
      · exact List.mem_cons_self _ _
      · exact List.mem_cons_of_mem _ (List.mem_cons_self _ _)
    · obtain ⟨h2, h3⟩ := ih h1
      exact ⟨List.mem_cons_of_mem _ (List.mem_cons_of_mem _ h2),
        List.mem_cons_of_mem _ (List.mem_cons_of_mem _ h3)⟩

theorem genEventsP_ids {α : Type} :
    ∀ (rs : List (ℕ × ℕ × α)) (i : ℕ), ∀ ev ∈ genEventsP i rs, ev.id = i := by
  intro rs i
  induction rs with
  | nil => intro ev hev; simp [genEventsP] at hev
  | cons r rest ih =>
    intro ev hev
    obtain ⟨b, e, d⟩ := r
    rcases List.mem_cons.mp hev with rfl | hev1
    · rfl
    · rcases List.mem_cons.mp hev1 with rfl | hev2
      · rfl
      · exact ih ev hev2

theorem evPositions_lower {α : Type} {b e : ℕ} {d : α} {rest : List (ℕ × ℕ × α)}
    (h : WFranges ((b, e, d) :: rest)) : ∀ t ∈ evPositions rest, e < t := by
  intro t ht
  induction rest generalizing b e d with
  | nil => simp [evPositions] at ht
  | cons r₁ rest' ih =>
    obtain ⟨b₁, e₁, d₁⟩ := r₁
    have h₁ : e < b₁ := (List.chain'_cons.mp h.2).1
    have hb₁e₁ : b₁ ≤ e₁ := h.1 (b₁, e₁, d₁) (by simp)
    simp only [evPositions, List.mem_cons] at ht
    rcases ht with rfl | rfl | ht2
    · omega
    · omega
    · have := ih (WFranges_tail h) ht2
      omega

theorem genEventsP_pairwise {α : Type} :
    ∀ (rs : List (ℕ × ℕ × α)) (i : ℕ), WFranges rs →
      List.Pairwise (fun x y : Ev α => x.pos ≤ y.pos) (genEventsP i rs) := by
  intro rs i
  induction rs with
  | nil => intro _; exact List.Pairwise.nil
  | cons r rest ih =>
    intro hwf
    obtain ⟨b, e, d⟩ := r
    have hbe : b ≤ e := hwf.1 (b, e, d) (by simp)
    have hrest := evPositions_lower hwf
    refine List.pairwise_cons.mpr ⟨?_, List.pairwise_cons.mpr ⟨?_, ih (WFranges_tail hwf)⟩⟩
    · intro ev hev
      rcases List.mem_cons.mp hev with rfl | hev1
      · show b ≤ e + 1
        omega
      · have := hrest ev.pos (mem_evPositions_of_mem rest i ev hev1)
        show b ≤ ev.pos
        omega
    · intro ev hev
      have := hrest ev.pos (mem_evPositions_of_mem rest i ev hev)
      show e + 1 ≤ ev.pos
      omega

theorem activeEntry_cons {α : Type} (b e : ℕ) (d : α) (rest : List (ℕ × ℕ × α)) (x : ℕ) :
    activeEntry ((b, e, d) :: rest) x =
      if b ≤ x ∧ x ≤ e then some d else activeEntry rest x := by
  unfold activeEntry
  by_cases h : b ≤ x ∧ x ≤ e
  · rw [List.find?_cons_of_pos _ (by simpa using h), if_pos h]
    rfl
  · rw [List.find?_cons_of_neg _ (by simpa using h), if_neg h]

theorem activeEntry_some {α : Type} {rs : List (ℕ × ℕ × α)} {x : ℕ} {p : α}
    (h : activeEntry rs x = some p) : ∃ b e, (b, e, p) ∈ rs ∧ b ≤ x ∧ x ≤ e := by
  unfold activeEntry at h
  cases hf : rs.find? (fun r => decide (r.1 ≤ x ∧ x ≤ r.2.1)) with
  | none => rw [hf] at h; cases h
  | some r =>
    rw [hf] at h
    obtain ⟨b, e, d⟩ := r
    simp only [Option.map_some', Option.some.injEq] at h
    subst h
    have hmem := List.mem_of_find?_eq_some hf
    have hp := List.find?_some hf
    simp only [decide_eq_true_eq] at hp
    exact ⟨b, e, hmem, hp⟩

theorem activeEntry_of_cover {α : Type} {rs : List (ℕ × ℕ × α)} (hwf : WFranges rs)
    {b e : ℕ} {p : α} (hmem : (b, e, p) ∈ rs) {x : ℕ} (hb : b ≤ x) (he : x ≤ e) :
    activeEntry rs x = some p := by
  unfold activeEntry
  cases hf : rs.find? (fun r => decide (r.1 ≤ x ∧ x ≤ r.2.1)) with
  | none =>
    exfalso
    have := List.find?_eq_none.mp hf (b, e, p) hmem
    simp at this
    omega
  | some r =>
    have hmem' := List.mem_of_find?_eq_some hf
    have hp := List.find?_some hf
    simp only [decide_eq_true_eq] at hp
    have := cover_unique hwf hmem' hmem x hp ⟨hb, he⟩
    rw [this]
    rfl

theorem activeEntry_none_of_lt {α : Type} {rs : List (ℕ × ℕ × α)} {x : ℕ}
    (h : ∀ r ∈ rs, x < r.1) : activeEntry rs x = none := by
  unfold activeEntry
  rw [List.find?_eq_none.mpr]
  · rfl
  · intro r hr
    simp only [decide_eq_true_eq]
    have := h r hr
    omega

theorem filter_events_nil {α : Type} {l : List (Ev α)} {q : ℕ}
    (h : ∀ ev ∈ l, ev.pos ≠ q) : l.filter (fun ev => ev.pos == q) = [] := by
  apply List.filter_eq_nil_iff.mpr
  intro ev hev
  simpa using h ev hev

theorem entry_transition {α : Type} (i : ℕ) :
    ∀ (rs : List (ℕ × ℕ × α)), WFranges rs → ∀ (lb : Option ℕ) (q : ℕ),
      Below lb q → (∀ t ∈ evPositions rs, Below lb t → q ≤ t) →
      entryApply ((genEventsP i rs).filter (fun ev => ev.pos == q)) (activeEntryO rs lb)
        = some (activeEntry rs q) := by
  intro rs
  induction rs with
  | nil =>
    intro _ lb q _ _
    cases lb <;> rfl
  | cons r rest ih =>
    intro hwf lb q hbq hq
    obtain ⟨b, e, d⟩ := r
    have hbe : b ≤ e := hwf.1 (b, e, d) (by simp)
    have hrest : ∀ t ∈ evPositions rest, e < t := evPositions_lower hwf
    have hwf' : WFranges rest := WFranges_tail hwf
    have hheads : ∀ r' ∈ rest, e < r'.1 := wf_head_lt hwf
    have hqb : Below lb b → q ≤ b := hq b (by simp [evPositions])
    have hqe : Below lb (e + 1) → q ≤ e + 1 := hq (e + 1) (by simp [evPositions])
    have hgen : genEventsP i ((b, e, d) :: rest) =
        ⟨b, 0, i, some d⟩ :: ⟨e + 1, 1, i, none⟩ :: genEventsP i rest := rfl
    have hfrest : e < q ∨ (genEventsP i rest).filter (fun ev => ev.pos == q) = [] := by
      rcases Nat.lt_or_ge e q with h1 | h1
      · exact Or.inl h1
      · refine Or.inr (filter_events_nil ?_)
        intro ev hev
        have := hrest ev.pos (mem_evPositions_of_mem rest i ev hev)
        omega
    rcases Nat.lt_or_ge q b with hA | hqb'
    · -- q strictly before this range: no events at q, nothing active at lb or q
      have hfilt : (genEventsP i ((b, e, d) :: rest)).filter (fun ev => ev.pos == q) = [] := by
        rw [hgen]
        apply filter_events_nil
        intro ev hev
        rcases List.mem_cons.mp hev with rfl | hev1
        · show b ≠ q; omega
        · rcases List.mem_cons.mp hev1 with rfl | hev2
          · show e + 1 ≠ q; omega
          · have := hrest ev.pos (mem_evPositions_of_mem rest i ev hev2)
            omega
      rw [hfilt]
      have hq' : activeEntry ((b, e, d) :: rest) q = none := by
        rw [activeEntry_cons, if_neg (by omega)]
        exact activeEntry_none_of_lt (fun r hr => by have := hheads r hr; omega)
      rw [hq']
      cases lb with
      | none => rfl
      | some x =>
        show some (activeEntry ((b, e, d) :: rest) x) = some none
        have hx : x < q := hbq
        rw [activeEntry_cons, if_neg (by omega)]
        rw [activeEntry_none_of_lt (fun r hr => by have := hheads r hr; omega)]
    · rcases Nat.lt_or_ge e q with he | he
      · rcases Nat.eq_or_lt_of_le (show e + 1 ≤ q by omega) with hD | hE
        · -- q = e + 1: the END event of this range fires here
          obtain ⟨x, rfl, hxb, hxe⟩ : ∃ x, lb = some x ∧ b ≤ x ∧ x ≤ e := by
            cases lb with
            | none => exact absurd (hqb trivial) (by omega)
            | some x =>
              have hxq : x < q := hbq
              refine ⟨x, rfl, ?_, by omega⟩
              by_contra hxb
              exact absurd (hqb (by simpa [Below] using by omega)) (by omega)
          have hcur : activeEntryO ((b, e, d) :: rest) (some x) = some d := by
            show activeEntry ((b, e, d) :: rest) x = some d
            rw [activeEntry_cons, if_pos ⟨hxb, hxe⟩]
          rw [hgen, List.filter_cons_of_neg (by simpa using by omega),
            List.filter_cons_of_pos (by simpa using hD), hcur]
          show entryApply ((genEventsP i rest).filter (fun ev => ev.pos == q)) none =
            some (activeEntry ((b, e, d) :: rest) q)
          have hih := ih hwf' (some e) q (by show e < q; omega)
            (fun t ht _ => by have := hrest t ht; omega)
          have hnone : activeEntryO rest (some e) = none :=
            activeEntry_none_of_lt hheads
          rw [hnone] at hih
          rw [hih, activeEntry_cons, if_neg (by omega)]
        · -- q past this range and past its END event: recurse into the tail
          obtain ⟨x, rfl, hxe⟩ : ∃ x, lb = some x ∧ e < x := by
            cases lb with
            | none => exact absurd (hqe trivial) (by omega)
            | some x =>
              refine ⟨x, rfl, ?_⟩
              by_contra hxb
              exact absurd (hqe (by simpa [Below] using by omega)) (by omega)
          have hxq : x < q := hbq
          have hcur : activeEntryO ((b, e, d) :: rest) (some x) = activeEntryO rest (some x) := by
            show activeEntry ((b, e, d) :: rest) x = activeEntry rest x
            rw [activeEntry_cons, if_neg (by omega)]
          rw [hgen, List.filter_cons_of_neg (by simpa using by omega),
            List.filter_cons_of_neg (by simpa using by omega), hcur]
          have hih := ih hwf' (some x) q (by show x < q; omega)
            (fun t ht hbt => hq t (by simp [evPositions, ht]) hbt)
          rw [hih, activeEntry_cons, if_neg (by omega)]
      · rcases Nat.eq_or_lt_of_le hqb' with hB | hC
        · -- q = b: the BEGIN event of this range fires here, on an empty slot
          subst hB
          have hcur : activeEntryO ((b, e, d) :: rest) lb = none := by
            cases lb with
            | none => rfl
            | some x =>
              show activeEntry ((b, e, d) :: rest) x = none
              have hx : x < b := hbq
              rw [activeEntry_cons, if_neg (by omega)]
              exact activeEntry_none_of_lt (fun r hr => by have := hheads r hr; omega)
          have hfr : (genEventsP i rest).filter (fun ev => ev.pos == b) = [] := by
            rcases hfrest with h1 | h1
            · omega
            · exact h1
          rw [hgen, List.filter_cons_of_pos (by simp),
            List.filter_cons_of_neg (by simpa using by omega), hfr, hcur]
          rw [activeEntry_cons, if_pos ⟨le_refl b, he⟩]
          rfl
        · -- strictly inside the range: lb is already inside it, no events at q
          obtain ⟨x, rfl, hxb, hxq⟩ : ∃ x, lb = some x ∧ b ≤ x ∧ x < q := by
            cases lb with
            | none => exact absurd (hqb trivial) (by omega)
            | some x =>
              have hxq : x < q := hbq
              refine ⟨x, rfl, ?_, hxq⟩
              by_contra hxb
              exact absurd (hqb (by simpa [Below] using by omega)) (by omega)
          have hfilt : (genEventsP i ((b, e, d) :: rest)).filter (fun ev => ev.pos == q) = [] := by
            rw [hgen]
            apply filter_events_nil
            intro ev hev
            rcases List.mem_cons.mp hev with rfl | hev1
            · show b ≠ q; omega
            · rcases List.mem_cons.mp hev1 with rfl | hev2
              · show e + 1 ≠ q; omega
              · have := hrest ev.pos (mem_evPositions_of_mem rest i ev hev2)
                omega
          rw [hfilt]
          have hcur : activeEntryO ((b, e, d) :: rest) (some x) = some d := by
            show activeEntry ((b, e, d) :: rest) x = some d
            rw [activeEntry_cons, if_pos ⟨hxb, by omega⟩]
          rw [hcur, activeEntry_cons, if_pos ⟨by omega, he⟩]
          rfl

/-! ### Lemmas: grouping the merged event stream by position -/

theorem gbpGo_head {α : Type} :
    ∀ (l : List (Ev α)) (p : ℕ) (acc : List (Ev α)),
      ∃ g t, gbpGo p acc l = (p, g) :: t := by
  intro l
  induction l with
  | nil => intro p acc; exact ⟨acc.reverse, [], rfl⟩
  | cons e rest ih =>
    intro p acc
    by_cases he : e.pos = p
    · obtain ⟨g, t, hgt⟩ := ih p (e :: acc)
      exact ⟨g, t, by rw [gbpGo, if_pos he]; exact hgt⟩
    · exact ⟨acc.reverse, gbpGo e.pos [e] rest, by rw [gbpGo, if_neg he]⟩

theorem gbpGo_spec {α : Type} :
    ∀ (l : List (Ev α)) (p : ℕ) (acc : List (Ev α)), acc ≠ [] →
      List.Pairwise (fun x y : Ev α => x.pos ≤ y.pos) (acc.reverse ++ l) →
      (∀ a ∈ acc, a.pos = p) →
      (∀ q g, (q, g) ∈ gbpGo p acc l →
          g = (acc.reverse ++ l).filter (fun ev => ev.pos == q)) ∧
      (∀ q g, (q, g) ∈ gbpGo p acc l → ∃ a ∈ acc.reverse ++ l, a.pos = q) ∧
      List.Chain' (fun a b : ℕ × List (Ev α) => a.1 < b.1) (gbpGo p acc l) ∧
      (∀ a ∈ acc.reverse ++ l, a.pos ∈ (gbpGo p acc l).map Prod.fst) := by
  intro l
  induction l with
  | nil =>
    intro p acc hne hp hacc
    obtain ⟨a₀, ha₀⟩ := List.exists_mem_of_ne_nil acc hne
    refine ⟨?_, ?_, ?_, ?_⟩
    · intro q g hqg
      rcases List.mem_singleton.mp hqg with h
      obtain ⟨rfl, rfl⟩ : q = p ∧ g = acc.reverse := ⟨congrArg Prod.fst h, congrArg Prod.snd h⟩
      rw [List.append_nil]
      refine (List.filter_eq_self.mpr ?_).symm
      intro a ha
      simp [hacc a (List.mem_reverse.mp ha)]
    · intro q g hqg
      rcases List.mem_singleton.mp hqg with h
      obtain rfl : q = p := congrArg Prod.fst h
      exact ⟨a₀, by simp [List.mem_reverse, ha₀], hacc a₀ ha₀⟩
    · exact List.chain'_singleton _
    · intro a ha
      rw [List.append_nil] at ha
      simp [gbpGo, hacc a (List.mem_reverse.mp ha)]
  | cons e rest ih =>
    intro p acc hne hp hacc
    by_cases he : e.pos = p
    · have hlist : (e :: acc).reverse ++ rest = acc.reverse ++ e :: rest := by simp
      have := ih p (e :: acc) (by simp) (by rw [hlist]; exact hp)
        (fun a ha => by rcases List.mem_cons.mp ha with rfl | h1; exact he; exact hacc a h1)
      rw [hlist] at this
      rw [show gbpGo p acc (e :: rest) = gbpGo p (e :: acc) rest from by rw [gbpGo, if_pos he]]
      exact this
    · obtain ⟨a₀, ha₀⟩ := List.exists_mem_of_ne_nil acc hne
      have hsub : List.Sublist (e :: rest) (acc.reverse ++ e :: rest) :=
        List.sublist_append_right _ _
      have hp' : List.Pairwise (fun x y : Ev α => x.pos ≤ y.pos) (e :: rest) :=
        hp.sublist hsub
      have hcross := (List.pairwise_append.mp hp).2.2
      have hpe : p < e.pos := by
        have := hcross a₀ (List.mem_reverse.mpr ha₀) e (List.mem_cons_self _ _)
        rw [hacc a₀ ha₀] at this
        omega
      have hge : ∀ a ∈ e :: rest, e.pos ≤ a.pos := by
        intro a ha
        rcases List.mem_cons.mp ha with rfl | h1
        · exact le_refl _
        · exact (List.pairwise_cons.mp hp').1 a h1
      obtain ⟨ih1, ih2, ih3, ih4⟩ := ih e.pos [e] (by simp)
        (by simpa using hp') (by simp)
      simp only [List.reverse_singleton, List.singleton_append] at ih1 ih2 ih4
      rw [show gbpGo p acc (e :: rest) = (p, acc.reverse) :: gbpGo e.pos [e] rest from by
        rw [gbpGo, if_neg he]]
      have hqge : ∀ q g, (q, g) ∈ gbpGo e.pos [e] rest → e.pos ≤ q := by
        intro q g hqg
        obtain ⟨a, ha, rfl⟩ := ih2 q g hqg
        exact hge a ha
      refine ⟨?_, ?_, ?_, ?_⟩
      · intro q g hqg
        rcases List.mem_cons.mp hqg with h | h
        · obtain ⟨rfl, rfl⟩ : q = p ∧ g = acc.reverse :=
            ⟨congrArg Prod.fst h, congrArg Prod.snd h⟩
          rw [List.filter_append]
          rw [List.filter_eq_self.mpr (fun a ha => by
            simp [hacc a (List.mem_reverse.mp ha)])]
          rw [filter_events_nil (fun ev hev => by have := hge ev hev; omega)]
          rw [List.append_nil]
        · rw [ih1 q g h, List.filter_append]
          rw [@filter_events_nil α acc.reverse q (fun ev hev => by
            have h1 := hacc ev (List.mem_reverse.mp hev)
            have h2 := hqge q g h
            omega)]
          rw [List.nil_append]
      · intro q g hqg
        rcases List.mem_cons.mp hqg with h | h
        · obtain rfl : q = p := congrArg Prod.fst h
          exact ⟨a₀, List.mem_append_left _ (List.mem_reverse.mpr ha₀), hacc a₀ ha₀⟩
        · obtain ⟨a, ha, rfl⟩ := ih2 q g h
          exact ⟨a, List.mem_append_right _ ha, rfl⟩
      · refine List.chain'_cons'.mpr ⟨?_, ih3⟩
        intro y hy
        obtain ⟨g, t, hgt⟩ := gbpGo_head rest e.pos [e]
        rw [hgt] at hy
        cases hy
        exact hpe
      · intro a ha
        rcases List.mem_append.mp ha with h | h
        · simp only [List.map_cons, List.mem_cons]
          exact Or.inl (hacc a (List.mem_reverse.mp h))
        · simp only [List.map_cons, List.mem_cons]
          exact Or.inr (ih4 a h)

theorem groupByPos_filter {α : Type} {L : List (Ev α)}
    (hp : List.Pairwise (fun x y : Ev α => x.pos ≤ y.pos) L) :
    ∀ q g, (q, g) ∈ groupByPos L → g = L.filter (fun ev => ev.pos == q) := by
  cases L with
  | nil => intro q g hqg; simp [groupByPos] at hqg
  | cons e rest =>
    intro q g hqg
    have := (gbpGo_spec rest e.pos [e] (by simp) (by simpa using hp) (by simp)).1 q g
      (by simpa [groupByPos] using hqg)
    simpa using this

theorem groupByPos_chain {α : Type} {L : List (Ev α)}
    (hp : List.Pairwise (fun x y : Ev α => x.pos ≤ y.pos) L) :
    List.Chain' (fun a b : ℕ × List (Ev α) => a.1 < b.1) (groupByPos L) := by
  cases L with
  | nil => exact List.chain'_nil
  | cons e rest =>
    exact (gbpGo_spec rest e.pos [e] (by simp) (by simpa using hp) (by simp)).2.2.1

theorem groupByPos_complete {α : Type} {L : List (Ev α)}
    (hp : List.Pairwise (fun x y : Ev α => x.pos ≤ y.pos) L) :
    ∀ ev ∈ L, ev.pos ∈ (groupByPos L).map Prod.fst := by
  cases L with
  | nil => intro ev hev; simp at hev
  | cons e rest =>
    intro ev hev
    have := (gbpGo_spec rest e.pos [e] (by simp) (by simpa using hp) (by simp)).2.2.2 ev
      (by simpa using hev)
    simpa [groupByPos] using this

/-! ### Lemmas: recovering each input stream from the merged event stream -/

theorem genAllP_id_ge {α : Type} :
    ∀ (inputs : List (List (ℕ × ℕ × α))) (k : ℕ),
      ∀ ev ∈ (genAllP k inputs).flatten, k ≤ ev.id := by
  intro inputs
  induction inputs with
  | nil => intro k ev hev; simp [genAllP] at hev
  | cons s rest ih =>
    intro k ev hev
    rw [show genAllP k (s :: rest) = genEventsP k s :: genAllP (k + 1) rest from rfl,
      List.flatten_cons] at hev
    rcases List.mem_append.mp hev with h | h
    · rw [genEventsP_ids s k ev h]
    · have := ih (k + 1) ev h
      omega

theorem mem_genAllP {α : Type} :
    ∀ (inputs : List (List (ℕ × ℕ × α))) (k : ℕ) (s' : List (Ev α)),
      s' ∈ genAllP k inputs →
      ∃ j, j < inputs.length ∧ s' = genEventsP (k + j) (inputs.getD j []) := by
  intro inputs
  induction inputs with
  | nil => intro k s' h; simp [genAllP] at h
  | cons s rest ih =>
    intro k s' h
    rw [show genAllP k (s :: rest) = genEventsP k s :: genAllP (k + 1) rest from rfl] at h
    rcases List.mem_cons.mp h with rfl | h1
    · exact ⟨0, by simp, by simp⟩
    · obtain ⟨j, hj, hs⟩ := ih (k + 1) s' h1
      exact ⟨j + 1, by simp; omega, by simpa [Nat.add_assoc, Nat.add_comm 1 j] using hs⟩

theorem genEventsP_mem_genAllP {α : Type} :
    ∀ (inputs : List (List (ℕ × ℕ × α))) (k j : ℕ), j < inputs.length →
      genEventsP (k + j) (inputs.getD j []) ∈ genAllP k inputs := by
  intro inputs
  induction inputs with
  | nil => intro k j h; simp at h
  | cons s rest ih =>
    intro k j h
    rw [show genAllP k (s :: rest) = genEventsP k s :: genAllP (k + 1) rest from rfl]
    cases j with
    | zero => simp
    | succ j' =>
      refine List.mem_cons_of_mem _ ?_
      have := ih (k + 1) j' (by simp at h; omega)
      simpa [Nat.add_assoc, Nat.add_comm 1 j'] using this

theorem flatten_genAllP_filter_id {α : Type} :
    ∀ (inputs : List (List (ℕ × ℕ × α))) (k j : ℕ),
      (genAllP k inputs).flatten.filter (fun ev => ev.id == k + j) =
        genEventsP (k + j) (inputs.getD j []) := by
  intro inputs
  induction inputs with
  | nil => intro k j; simp [genAllP, genEventsP]
  | cons s rest ih =>
    intro k j
    rw [show genAllP k (s :: rest) = genEventsP k s :: genAllP (k + 1) rest from rfl,
      List.flatten_cons, List.filter_append]
    cases j with
    | zero =>
      rw [List.filter_eq_self.mpr (fun ev hev => by
        simp [genEventsP_ids s k ev hev])]
      rw [List.filter_eq_nil_iff.mpr (fun ev hev => by
        have := genAllP_id_ge rest (k + 1) ev hev
        simp only [beq_iff_eq]
        omega)]
      simp
    | succ j' =>
      rw [List.filter_eq_nil_iff.mpr (fun ev hev => by
        rw [genEventsP_ids s k ev hev]
        simp only [beq_iff_eq]
        omega)]
      have := ih (k + 1) j'
      rw [List.nil_append, show k + (j' + 1) = k + 1 + j' from by omega]
      rw [this]
      simp

theorem genEventsP_sorted_of_wf {α : Type} (inputs : List (List (ℕ × ℕ × α)))
    (hwf : ∀ s ∈ inputs, WFranges s) (k : ℕ) :
    ∀ s' ∈ genAllP k inputs, List.Pairwise (fun x y : Ev α => x.pos ≤ y.pos) s' := by
  intro s' hs'
  obtain ⟨j, hj, rfl⟩ := mem_genAllP inputs k s' hs'
  refine genEventsP_pairwise _ _ ?_
  have : inputs.getD j [] ∈ inputs := by
    rw [List.getD_eq_getElem inputs [] hj]
    exact List.getElem_mem hj
  exact hwf _ this

theorem mergeEvents_pairwise {α : Type} (inputs : List (List (ℕ × ℕ × α)))
    (hwf : ∀ s ∈ inputs, WFranges s) :
    List.Pairwise (fun x y : Ev α => x.pos ≤ y.pos)
      (mergeEvents (genAllP 0 inputs)) :=
  mergeEvF_pairwise _ _ (le_refl _) (genEventsP_sorted_of_wf inputs hwf 0)

theorem mergeEvents_filter_id {α : Type} (inputs : List (List (ℕ × ℕ × α))) (j : ℕ) :
    (mergeEvents (genAllP 0 inputs)).filter (fun ev => ev.id == j) =
      genEventsP j (inputs.getD j []) := by
  have hperm : (mergeEvents (genAllP 0 inputs)).Perm (genAllP 0 inputs).flatten :=
    mergeEvF_perm _ _ (le_refl _)
  have hpf := hperm.filter (fun ev => ev.id == j)
  have hfl : (genAllP 0 inputs).flatten.filter (fun ev => ev.id == j) =
      genEventsP j (inputs.getD j []) := by
    have := flatten_genAllP_filter_id inputs 0 j
    simpa using this
  rw [hfl] at hpf
  rcases Nat.lt_or_ge j inputs.length with hj | hj
  · have hmem : genEventsP j (inputs.getD j []) ∈ genAllP 0 inputs := by
      have := genEventsP_mem_genAllP inputs 0 j hj
      simpa using this
    have hsub : List.Sublist (genEventsP j (inputs.getD j []))
        (mergeEvents (genAllP 0 inputs)) :=
      mergeEvF_sublist _ _ (le_refl _) _ hmem
    have hsubf := hsub.filter (fun ev => ev.id == j)
    rw [List.filter_eq_self.mpr (fun ev hev => by
      simp [genEventsP_ids _ j ev hev])] at hsubf
    exact (hsubf.eq_of_length (hpf.length_eq.symm)).symm
  · have hnil : inputs.getD j [] = [] := by
      rw [List.getD_eq_default]
      omega
    rw [hnil] at hpf ⊢
    exact hpf.eq_nil

theorem evPositions_of_mem {α : Type} :
    ∀ (s : List (ℕ × ℕ × α)) (b e : ℕ) (d : α), (b, e, d) ∈ s →
      b ∈ evPositions s ∧ e + 1 ∈ evPositions s := by
  intro s b e d
  induction s with
  | nil => intro h; simp at h
  | cons r rest ih =>
    intro h
    obtain ⟨b₁, e₁, d₁⟩ := r
    rcases List.mem_cons.mp h with heq | h1
    · cases heq
      exact ⟨by simp [evPositions], by simp [evPositions]⟩
    · obtain ⟨h2, h3⟩ := ih h1
      exact ⟨by simp [evPositions, h2], by simp [evPositions, h3]⟩

theorem runGroups_spec {α : Type} (inputs : List (List (ℕ × ℕ × α)))
    (hwf : ∀ s ∈ inputs, WFranges s) :
    ∀ (gs : List (ℕ × List (Ev α))) (lb : Option ℕ) (m : Dict ℕ α),
      NodupKeys m →
      (∀ j, dlookup m j = activeEntryO (inputs.getD j []) lb) →
      (∀ q g, (q, g) ∈ gs → ∀ j, g.filter (fun ev => ev.id == j) =
          (genEventsP j (inputs.getD j [])).filter (fun ev => ev.pos == q)) →
      List.Pairwise (fun a b : ℕ × List (Ev α) => a.1 < b.1) gs →
      (∀ q g, (q, g) ∈ gs → Below lb q) →
      (∀ j, ∀ t ∈ evPositions (inputs.getD j []), Below lb t → t ∈ gs.map Prod.fst) →
      ∃ outs mf flb,
        runGroups gs lb m = some (outs, mf) ∧
        NodupKeys mf ∧
        (∀ j, dlookup mf j = activeEntryO (inputs.getD j []) flb) ∧
        (∀ j, ∀ t ∈ evPositions (inputs.getD j []), ¬ Below flb t) ∧
        (∀ lo hi ps, (lo, hi, ps) ∈ outs → ∀ p : α,
          p ∈ ps ↔ ∃ s ∈ inputs, ∃ b e, (b, e, p) ∈ s ∧ b ≤ lo ∧ hi ≤ e) := by
  have hwfj : ∀ j, WFranges (inputs.getD j []) := by
    intro j
    rcases Nat.lt_or_ge j inputs.length with hj | hj
    · refine hwf _ ?_
      rw [List.getD_eq_getElem inputs [] hj]
      exact List.getElem_mem hj
    · rw [List.getD_eq_default _ _ (by omega)]
      exact ⟨fun r hr => absurd hr (List.not_mem_nil _), List.chain'_nil⟩
  intro gs
  induction gs with
  | nil =>
    intro lb m hnd hm hg hpw hblw hcompl
    refine ⟨[], m, lb, rfl, hnd, hm, ?_, ?_⟩
    · intro j t ht hb
      have := hcompl j t ht hb
      simp at this
    · intro lo hi ps h
      exact absurd h (List.not_mem_nil _)
  | cons hd rest ih =>
    intro lb m hnd hm hg hpw hblw hcompl
    obtain ⟨q, g⟩ := hd
    have hgap : ∀ j, ∀ t ∈ evPositions (inputs.getD j []), Below lb t → q ≤ t := by
      intro j t ht hb
      have hmem := hcompl j t ht hb
      simp only [List.map_cons, List.mem_cons] at hmem
      rcases hmem with rfl | h1
      · exact le_refl t
      · obtain ⟨⟨q', g'⟩, hq', hq'eq⟩ := List.mem_map.mp h1
        have hlt := (List.pairwise_cons.mp hpw).1 _ hq'
        simp only at hlt hq'eq
        omega
    have hblwq : Below lb q := hblw q g (List.mem_cons_self _ _)
    have htrans : ∀ j, entryApply (g.filter (fun ev => ev.id == j)) (dlookup m j) =
        some (activeEntry (inputs.getD j []) q) := by
      intro j
      rw [hg q g (List.mem_cons_self _ _) j, hm j]
      exact entry_transition j _ (hwfj j) lb q hblwq (hgap j)
    have hsome : (applyEvents g m).isSome :=
      applyEvents_isSome g m (fun i => by rw [htrans i]; rfl)
    obtain ⟨m'', hm''⟩ : ∃ m'', applyEvents g m = some m'' := by
      cases hx : applyEvents g m with
      | none => rw [hx] at hsome; cases hsome
      | some y => exact ⟨y, rfl⟩
    have hm''j : ∀ j, dlookup m'' j = activeEntry (inputs.getD j []) q := by
      intro j
      have h1 := applyEvents_lookup g m m'' hm'' j
      rw [htrans j] at h1
      exact (Option.some.inj h1).symm
    have hnd'' := applyEvents_nodup g m m'' hnd hm''
    have ihres := ih (some q) m'' hnd'' (fun j => hm''j j)
      (fun q' g' hq' j => hg q' g' (List.mem_cons_of_mem _ hq') j)
      (List.pairwise_cons.mp hpw).2
      (fun q' g' hq' => show q < q' from (List.pairwise_cons.mp hpw).1 _ hq')
      (by
        intro j t ht hb
        have hlt : q < t := hb
        have hblt : Below lb t := by
          cases lb with
          | none => trivial
          | some x => exact Nat.lt_trans hblwq hlt
        have hmem := hcompl j t ht hblt
        simp only [List.map_cons, List.mem_cons] at hmem
        rcases hmem with rfl | h1
        · omega
        · exact h1)
    obtain ⟨outs, mf, flb, hrun, hndf, hmf, hflb, houts⟩ := ihres
    refine ⟨(if m.isEmpty then [] else [(lb.getD 0, q - 1, m.map Prod.snd)]) ++ outs,
      mf, flb, ?_, hndf, hmf, hflb, ?_⟩
    · show runGroups ((q, g) :: rest) lb m = _
      simp only [runGroups, hm'', hrun]
    · intro lo hi ps hmem p
      rcases List.mem_append.mp hmem with h | h
      · by_cases hemp : m.isEmpty
        · rw [if_pos hemp] at h
          exact absurd h (List.not_mem_nil _)
        · rw [if_neg hemp] at h
          have h' := List.mem_singleton.mp h
          injection h' with h1 h2
          injection h2 with h2 h3
          subst h1
          subst h2
          subst h3
          obtain ⟨x, rfl⟩ : ∃ x, lb = some x := by
            cases lb with
            | none =>
              exfalso
              cases m with
              | nil => exact hemp rfl
              | cons kv t =>
                have hk := hm kv.1
                rw [dlookup_of_mem_nodup (List.mem_cons_self kv t) hnd] at hk
                exact Option.noConfusion hk
            | some x => exact ⟨x, rfl⟩
          have hxq : x < q := hblwq
          constructor
          · intro hp
            obtain ⟨jj, hjj⟩ := (values_lookup m hnd p).mp hp
            rw [hm jj] at hjj
            obtain ⟨b, e, hbe_mem, hbx, hxe⟩ := activeEntry_some hjj
            have hjlt : jj < inputs.length := by
              by_contra hge
              rw [List.getD_eq_default _ _ (by omega)] at hbe_mem
              exact absurd hbe_mem (List.not_mem_nil _)
            have hsmem : inputs.getD jj [] ∈ inputs := by
              rw [List.getD_eq_getElem inputs [] hjlt]
              exact List.getElem_mem hjlt
            refine ⟨inputs.getD jj [], hsmem, b, e, hbe_mem, hbx, ?_⟩
            have he1 := (evPositions_of_mem _ b e p hbe_mem).2
            have := hgap jj (e + 1) he1 (show x < e + 1 by omega)
            omega
          · rintro ⟨s, hs, b, e, hbep, hblo, hhie⟩
            obtain ⟨jj, hjlt, hjeq⟩ := List.mem_iff_getElem.mp hs
            have hsd : inputs.getD jj [] = s := by
              rw [List.getD_eq_getElem inputs [] hjlt]
              exact hjeq
            have hlk : dlookup m jj = some p := by
              rw [hm jj]
              show activeEntry (inputs.getD jj []) x = some p
              rw [hsd]
              exact activeEntry_of_cover (hsd ▸ hwfj jj) hbep hblo (by omega)
            exact (values_lookup m hnd p).mpr ⟨jj, hlk⟩
      · exact houts lo hi ps h p

/-! ### The multi-input merge pipeline succeeds and its outputs are covers -/

theorem genEvents_eq_genEventsP {α : Type} (i : ℕ) :
    ∀ (s : List (ℕ × ℕ × α)), (∀ r ∈ s, r.1 ≤ r.2.1) →
      genEvents i s = some (genEventsP i s) := by
  intro s
  induction s with
  | nil => intro _; rfl
  | cons r rest ih =>
    intro h
    obtain ⟨b, e, d⟩ := r
    have hbe : b ≤ e := h (b, e, d) (List.mem_cons_self _ _)
    rw [genEvents, if_pos hbe, ih (fun r hr => h r (List.mem_cons_of_mem _ hr))]
    rfl

theorem genAll_eq_genAllP {α : Type} :
    ∀ (inputs : List (List (ℕ × ℕ × α))) (k : ℕ), (∀ s ∈ inputs, WFranges s) →
      genAll k inputs = some (genAllP k inputs) := by
  intro inputs
  induction inputs with
  | nil => intro k _; rfl
  | cons s rest ih =>
    intro k h
    rw [genAll, genEvents_eq_genEventsP k s (h s (List.mem_cons_self _ _)).1,
      ih (k + 1) (fun s' hs' => h s' (List.mem_cons_of_mem _ hs'))]
    rfl

theorem mergeMulti_spec {α : Type} (inputs : List (List (ℕ × ℕ × α)))
    (hwf : ∀ s ∈ inputs, WFranges s) :
    ∃ outs, mergeMulti inputs = some outs ∧
      ∀ lo hi ps, (lo, hi, ps) ∈ outs → ∀ p : α,
        p ∈ ps ↔ ∃ s ∈ inputs, ∃ b e, (b, e, p) ∈ s ∧ b ≤ lo ∧ hi ≤ e := by
  have hgen := genAll_eq_genAllP inputs 0 hwf
  have hLp := mergeEvents_pairwise inputs hwf
  have hgs := runGroups_spec inputs hwf (groupByPos (mergeEvents (genAllP 0 inputs))) none []
    List.nodup_nil (fun j => rfl)
    (by
      intro q g hqg j
      rw [groupByPos_filter hLp q g hqg]
      rw [List.filter_comm]
      rw [mergeEvents_filter_id inputs j])
    (by
      haveI : IsTrans (ℕ × List (Ev α)) (fun a b => a.1 < b.1) :=
        ⟨fun a b c h1 h2 => Nat.lt_trans h1 h2⟩
      exact List.chain'_iff_pairwise.mp (groupByPos_chain hLp))
    (fun q g _ => trivial)
    (by
      intro j t ht _
      obtain ⟨ev, hev, hpos⟩ := mem_events_of_evPositions (inputs.getD j []) j t ht
      rw [← mergeEvents_filter_id inputs j] at hev
      have hevL := List.mem_of_mem_filter hev
      have := groupByPos_complete hLp ev hevL
      rw [hpos] at this
      exact this)
  obtain ⟨outs, mf, flb, hrun, hndf, hmf, hflb, houts⟩ := hgs
  have hmfnil : mf = [] := by
    apply eq_nil_of_lookup_none
    intro j
    rw [hmf j]
    cases flb with
    | none => rfl
    | some x =>
      show activeEntry (inputs.getD j []) x = none
      cases hx : activeEntry (inputs.getD j []) x with
      | none => rfl
      | some p =>
        exfalso
        obtain ⟨b, e, hbe_mem, hbx, hxe⟩ := activeEntry_some hx
        have he1 := (evPositions_of_mem _ b e p hbe_mem).2
        exact hflb j (e + 1) he1 (show x < e + 1 by omega)
  subst hmfnil
  refine ⟨outs, ?_, houts⟩
  rw [mergeMulti, hgen]
  simp only [hrun]
  rfl

theorem WFranges_of_wfRangesB {α : Type} :
    ∀ (s : List (ℕ × ℕ × α)), wfRangesB s = true → WFranges s := by
  intro s
  induction s with
  | nil => intro _; exact ⟨fun r hr => absurd hr (List.not_mem_nil _), List.chain'_nil⟩
  | cons r t ih =>
    obtain ⟨b, e, d⟩ := r
    cases t with
    | nil =>
      intro h
      have hbe : b ≤ e := by simpa [wfRangesB] using h
      refine ⟨?_, List.chain'_singleton _⟩
      intro r hr
      rcases List.mem_singleton.mp hr with rfl
      exact hbe
    | cons r' t' =>
      obtain ⟨b', e', d'⟩ := r'
      intro h
      rw [wfRangesB] at h
      simp only [Bool.and_eq_true, decide_eq_true_eq] at h
      obtain ⟨⟨hbe, heb⟩, hrec⟩ := h
      have hwf' := ih (by simpa [wfRangesB] using hrec)
      refine ⟨?_, List.chain'_cons.mpr ⟨heb, hwf'.2⟩⟩
      intro r hr
      rcases List.mem_cons.mp hr with rfl | hr'
      · exact hbe
      · exact hwf'.1 r hr'

theorem single_coverage {α : Type} (s : List (ℕ × ℕ × α)) (hwf : WFranges s)
    (lo hi : ℕ) (ps : List α)
    (hmem : (lo, hi, ps) ∈ s.map (fun r => (r.1, r.2.1, [r.2.2]))) (p : α) :
    p ∈ ps ↔ ∃ b e, (b, e, p) ∈ s ∧ b ≤ lo ∧ hi ≤ e := by
  obtain ⟨⟨b', e', p'⟩, hr, heq⟩ := List.mem_map.mp hmem
  dsimp only at heq
  cases heq
  have hlohi : lo ≤ hi := hwf.1 (lo, hi, p') hr
  constructor
  · intro hp
    have : p = p' := List.mem_singleton.mp hp
    subst this
    exact ⟨lo, hi, hr, le_refl _, le_refl _⟩
  · rintro ⟨b, e, hbe, hblo, hhie⟩
    have hequ := cover_unique hwf hbe hr lo ⟨hblo, show lo ≤ e by omega⟩ ⟨le_refl _, hlohi⟩
    injection hequ with h1 h2
    injection h2 with h2 h3
    subst h3
    exact List.mem_singleton.mpr rfl

/-- C1: the per-range coverage iff of the spec is amended to an existential:
for well-formed input streams, a payload `p` is a member of an output
range's payload list iff SOME input range carrying payload `p` covers the
whole output range.  (The literal per-range iff is refuted by
`C1_counterexample_duplicate_payload`: the same payload may occur on two
ranges of one stream, and a non-covering one then falsifies the
right-to-left direction.) -/
theorem C1_merger_coverage {α : Type} (inputs : List (List (ℕ × ℕ × α)))
    (hwf : ∀ s ∈ inputs, WFranges s) (outs : List (ℕ × ℕ × List α))
    (hout : merge_ranges inputs = some outs) :
    ∀ lo hi ps, (lo, hi, ps) ∈ outs → ∀ p : α,
      p ∈ ps ↔ ∃ s ∈ inputs, ∃ b e, (b, e, p) ∈ s ∧ b ≤ lo ∧ hi ≤ e := by
  rcases inputs with _ | ⟨s₀, _ | ⟨s₁, t⟩⟩
  · obtain ⟨outs', h1, h2⟩ := mergeMulti_spec [] hwf
    rw [show merge_ranges ([] : List (List (ℕ × ℕ × α))) = mergeMulti [] from rfl, h1] at hout
    cases hout
    exact h2
  · rw [show merge_ranges [s₀] = some (s₀.map fun r => (r.1, r.2.1, [r.2.2])) from rfl] at hout
    cases hout
    intro lo hi ps hmem p
    rw [single_coverage s₀ (hwf s₀ (List.mem_cons_self _ _)) lo hi ps hmem p]
    constructor
    · rintro ⟨b, e, hbe, hblo, hhie⟩
      exact ⟨s₀, List.mem_cons_self _ _, b, e, hbe, hblo, hhie⟩
    · rintro ⟨s, hs, b, e, hbe, hblo, hhie⟩
      rcases List.mem_singleton.mp hs with rfl
      exact ⟨b, e, hbe, hblo, hhie⟩
  · obtain ⟨outs', h1, h2⟩ := mergeMulti_spec (s₀ :: s₁ :: t) hwf
    rw [show merge_ranges (s₀ :: s₁ :: t) = mergeMulti (s₀ :: s₁ :: t) from rfl, h1] at hout
    cases hout
    exact h2

/-- C1 counterexample to the claim as stated: both input streams satisfy
the contract, the first output range is `(0, 1, [10, 20])`, and the input
range `(5, 6, 10)` of the first stream has its payload `10` in that list
even though `5 ≤ 0 ∧ 1 ≤ 6` fails — the payload `10` in the output comes
from the OTHER range `(0, 1, 10)` of the same stream. -/
theorem C1_counterexample_duplicate_payload :
    WFranges [(0, 1, (10 : ℕ)), (5, 6, 10)] ∧ WFranges [(0, 6, (20 : ℕ))] ∧
      merge_ranges [[(0, 1, 10), (5, 6, 10)], [(0, 6, 20)]] =
        some [(0, 1, [10, 20]), (2, 4, [20]), (5, 6, [20, 10])] ∧
      (5, 6, (10 : ℕ)) ∈ [(0, 1, (10 : ℕ)), (5, 6, 10)] ∧
      ¬ ((10 : ℕ) ∈ [10, 20] ↔ 5 ≤ 0 ∧ 1 ≤ 6) :=
  ⟨WFranges_of_wfRangesB _ (by decide), WFranges_of_wfRangesB _ (by decide),
    by decide, by decide, by decide⟩

/-- Witness for `C1_merger_coverage` at a concrete two-stream input:
the output range `(3, 5, [1, 2])` of
`merge_ranges [[(0,5,1)], [(3,8,2)]]` contains payload `1` iff some input
range with payload `1` covers `[3, 5]` (namely `(0, 5, 1)`). -/
theorem C1_merger_coverage_witness :
    (∀ s ∈ ([[(0, 5, (1 : ℕ))], [(3, 8, 2)]] : List (List (ℕ × ℕ × ℕ))), WFranges s) ∧
      ((1 : ℕ) ∈ [1, 2] ↔ ∃ s ∈ ([[(0, 5, (1 : ℕ))], [(3, 8, 2)]] :
          List (List (ℕ × ℕ × ℕ))), ∃ b e, (b, e, 1) ∈ s ∧ b ≤ 3 ∧ 5 ≤ e) :=
    ⟨by
      intro s hs
      simp only [List.mem_cons, List.not_mem_nil, or_false] at hs
      rcases hs with rfl | rfl
      · exact WFranges_of_wfRangesB _ (by decide)
      · exact WFranges_of_wfRangesB _ (by decide),
    C1_merger_coverage [[(0, 5, (1 : ℕ))], [(3, 8, 2)]]
      (by
        intro s hs
        simp only [List.mem_cons, List.not_mem_nil, or_false] at hs
        rcases hs with rfl | rfl
        · exact WFranges_of_wfRangesB _ (by decide)
        · exact WFranges_of_wfRangesB _ (by decide))
      [(0, 2, [1]), (3, 5, [1, 2]), (6, 8, [2])] (by decide) 3 5 [1, 2] (by decide) 1⟩

/-- C5: with two or more input streams each satisfying the stream
contract (`begin ≤ end`, strictly increasing and non-overlapping, adjacent
allowed), fully consuming `merge_ranges` raises nothing: every BEGIN finds
its input id absent, every END finds it present, and the active map is
empty after the last event (`merge_ranges` returns `some`, where `none`
models any assertion failure). -/
theorem C5_merge_assertion_safety {α : Type} (inputs : List (List (ℕ × ℕ × α)))
    (hlen : 2 ≤ inputs.length) (hwf : ∀ s ∈ inputs, WFranges s) :
    ∃ outs, merge_ranges inputs = some outs := by
  rcases inputs with _ | ⟨s₀, _ | ⟨s₁, t⟩⟩
  · simp at hlen
  · simp at hlen
  · obtain ⟨outs, h1, _⟩ := mergeMulti_spec (s₀ :: s₁ :: t) hwf
    exact ⟨outs,
      by rw [show merge_ranges (s₀ :: s₁ :: t) = mergeMulti (s₀ :: s₁ :: t) from rfl]; exact h1⟩

/-- Witness for `C5_merge_assertion_safety` at a concrete two-stream
input with overlapping (between streams) and adjacent ranges. -/
theorem C5_merge_assertion_safety_witness :
    2 ≤ ([[(0, 5, (1 : ℕ))], [(3, 8, 2)], [(6, 6, 3), (7, 9, 4)]] :
        List (List (ℕ × ℕ × ℕ))).length ∧
      (∀ s ∈ ([[(0, 5, (1 : ℕ))], [(3, 8, 2)], [(6, 6, 3), (7, 9, 4)]] :
        List (List (ℕ × ℕ × ℕ))), WFranges s) ∧
      ∃ outs, merge_ranges [[(0, 5, (1 : ℕ))], [(3, 8, 2)], [(6, 6, 3), (7, 9, 4)]] =
        some outs :=
  ⟨by decide,
    by
      intro s hs
      simp only [List.mem_cons, List.not_mem_nil, or_false] at hs
      rcases hs with rfl | rfl | rfl
      · exact WFranges_of_wfRangesB _ (by decide)
      · exact WFranges_of_wfRangesB _ (by decide)
      · exact WFranges_of_wfRangesB _ (by decide),
    C5_merge_assertion_safety [[(0, 5, (1 : ℕ))], [(3, 8, 2)], [(6, 6, 3), (7, 9, 4)]]
      (by decide)
      (by
        intro s hs
        simp only [List.mem_cons, List.not_mem_nil, or_false] at hs
        rcases hs with rfl | rfl | rfl
        · exact WFranges_of_wfRangesB _ (by decide)
        · exact WFranges_of_wfRangesB _ (by decide)
        · exact WFranges_of_wfRangesB _ (by decide))⟩
